import Mathlib

/-!
# Verification of the kinetic-rs workflow engine core

Shallow embedding of the core of the `kinetic-rs` agentic workflow engine:

* `src/kinetic/workflow/state/store.rs`        — the reducer-based state store,
* `src/kinetic/workflow/condition/{ast,evaluator,parser}.rs` — the condition language,
* `src/kinetic/workflow/graph/executor.rs`      — the graph scheduler,
* `src/adk/agent/llm.rs`                        — the LLM turn loop (plain and streaming),
* `src/adk/agent/react.rs`                      — the ReAct response classifier.

Modelling conventions:

* `serde_json::Value` is modelled by `Json`.  JSON numbers (`i64`/`u64`/`f64`)
  are modelled as exact rationals (`ℚ`); `Number::as_f64` (which succeeds on all
  three representations) is modelled by the identity on that rational.
  `f64::EPSILON = 2⁻⁵²` becomes the rational `1/2⁵²`.
* `serde_json::Map` (the crate's default `BTreeMap` representation, the
  `preserve_order` feature being off) is modelled as a key-sorted association
  list; Lean's `String` order coincides with Rust's byte-wise `String` order
  because UTF-8 byte order agrees with scalar-value order.
* `std::collections::HashMap` is modelled as an association list with
  first-match lookup and in-place replacing insert; `collect` from an iterator
  with duplicate keys keeps the last occurrence, `HashMap` iteration order is
  only ever used by the source where the result is order-insensitive.
* Async functions are sequential in the source (`await`ed one by one), so they
  are modelled as plain functions; fallible ones return `Except String α`.
* The `Agent`, `Model` and `Tool` capabilities are modelled as deterministic
  functions (the core treats them as black boxes).
-/

/-- Model of `serde_json::Value`.  Object fields are kept sorted by key
(ascending), mirroring the crate's default `BTreeMap` map representation. -/
inductive Json where
  | null : Json
  | bool (b : Bool) : Json
  | num (q : ℚ) : Json
  | str (s : String) : Json
  | arr (elems : List Json) : Json
  | obj (fields : List (String × Json)) : Json
deriving Repr

namespace Json

/-- Decidable equality, mirroring `serde_json::Value`'s structural `PartialEq`. -/
def beq : Json → Json → Bool
  | .null, .null => true
  | .bool a, .bool b => a = b
  | .num a, .num b => a = b
  | .str a, .str b => a = b
  | .arr xs, .arr ys => beqList xs ys
  | .obj xs, .obj ys => beqFields xs ys
  | _, _ => false
where
  beqList : List Json → List Json → Bool
    | [], [] => true
    | x :: xs, y :: ys => beq x y && beqList xs ys
    | _, _ => false
  beqFields : List (String × Json) → List (String × Json) → Bool
    | [], [] => true
    | (k, v) :: xs, (k', v') :: ys => k = k' && beq v v' && beqFields xs ys
    | _, _ => false

mutual

theorem beq_refl : ∀ j : Json, beq j j = true
  | .null => rfl
  | .bool b => by simp [beq]
  | .num q => by simp [beq]
  | .str s => by simp [beq]
  | .arr xs => by simp [beq, beqList_refl xs]
  | .obj fs => by simp [beq, beqFields_refl fs]

theorem beqList_refl : ∀ xs : List Json, beq.beqList xs xs = true
  | [] => rfl
  | x :: xs => by simp [beq.beqList, beq_refl x, beqList_refl xs]

theorem beqFields_refl : ∀ fs : List (String × Json), beq.beqFields fs fs = true
  | [] => rfl
  | (k, v) :: fs => by simp [beq.beqFields, beq_refl v, beqFields_refl fs]

end

mutual

theorem eq_of_beq : ∀ {a b : Json}, beq a b = true → a = b
  | .null, .null, _ => rfl
  | .bool x, .bool y, h => by simpa [beq] using h
  | .num x, .num y, h => by
    have : x = y := by simpa [beq] using h
    rw [this]
  | .str x, .str y, h => by
    have : x = y := by simpa [beq] using h
    rw [this]
  | .arr xs, .arr ys, h => by
    have : xs = ys := eqList_of_beqList (by simpa [beq] using h)
    rw [this]
  | .obj fs, .obj gs, h => by
    have : fs = gs := eqFields_of_beqFields (by simpa [beq] using h)
    rw [this]
  | .null, .bool _, h | .null, .num _, h | .null, .str _, h
  | .null, .arr _, h | .null, .obj _, h
  | .bool _, .null, h | .bool _, .num _, h | .bool _, .str _, h
  | .bool _, .arr _, h | .bool _, .obj _, h
  | .num _, .null, h | .num _, .bool _, h | .num _, .str _, h
  | .num _, .arr _, h | .num _, .obj _, h
  | .str _, .null, h | .str _, .bool _, h | .str _, .num _, h
  | .str _, .arr _, h | .str _, .obj _, h
  | .arr _, .null, h | .arr _, .bool _, h | .arr _, .num _, h
  | .arr _, .str _, h | .arr _, .obj _, h
  | .obj _, .null, h | .obj _, .bool _, h | .obj _, .num _, h
  | .obj _, .str _, h | .obj _, .arr _, h => by simp [beq] at h

theorem eqList_of_beqList : ∀ {xs ys : List Json}, beq.beqList xs ys = true → xs = ys
  | [], [], _ => rfl
  | x :: xs, y :: ys, h => by
    simp only [beq.beqList, Bool.and_eq_true] at h
    rw [eq_of_beq h.1, eqList_of_beqList h.2]
  | [], _ :: _, h | _ :: _, [], h => by simp [beq.beqList] at h

theorem eqFields_of_beqFields :
    ∀ {fs gs : List (String × Json)}, beq.beqFields fs gs = true → fs = gs
  | [], [], _ => rfl
  | (k, v) :: fs, (k', v') :: gs, h => by
    simp only [beq.beqFields, Bool.and_eq_true, decide_eq_true_eq] at h
    rw [h.1.1, eq_of_beq h.1.2, eqFields_of_beqFields h.2]
  | [], _ :: _, h | _ :: _, [], h => by simp [beq.beqFields] at h

end

instance : DecidableEq Json := fun a b =>
  if h : beq a b = true then .isTrue (eq_of_beq h)
  else .isFalse (fun he => h (he ▸ beq_refl a))

/-- Model of `Value::get::<&str>`: key lookup on objects, `None` elsewhere. -/
def get (j : Json) (key : String) : Option Json :=
  match j with
  | .obj fields => (fields.find? (fun p => p.1 = key)).map (·.2)
  | _ => none

/-- Model of `Value::as_f64`: numbers only (always succeeds on a number in the
default `serde_json` configuration; the rational stands for the f64). -/
def asNum : Json → Option ℚ
  | .num q => some q
  | _ => none

/-- Model of `Value::as_str`. -/
def asStr : Json → Option String
  | .str s => some s
  | _ => none

/-- Model of `Value::as_bool`. -/
def asBool : Json → Option Bool
  | .bool b => some b
  | _ => none

end Json

/-- Lexicographic strict order on character lists. -/
def charListLt : List Char → List Char → Bool
  | [], [] => false
  | [], _ :: _ => true
  | _ :: _, [] => false
  | c :: cs, d :: ds => if c < d then true else if d < c then false else charListLt cs ds

/-- Rust's `Ord` on `String` (byte-wise comparison of the UTF-8 encodings,
which coincides with scalar-value lexicographic order). -/
def strLt (a b : String) : Bool := charListLt a.toList b.toList

/-- Insert into a key-sorted association list (the `BTreeMap::insert` model):
keeps keys ascending, replaces the value on an existing key. -/
def mapInsert (fields : List (String × Json)) (k : String) (v : Json) :
    List (String × Json) :=
  match fields with
  | [] => [(k, v)]
  | (k', v') :: rest =>
    if strLt k k' then (k, v) :: (k', v') :: rest
    else if k = k' then (k, v) :: rest
    else (k', v') :: mapInsert rest k v

/-- `HashMap` lookup model: first matching key of the association list. -/
def hmGet {α : Type} (m : List (String × α)) (k : String) : Option α :=
  (m.find? (fun p => p.1 = k)).map (·.2)

/-- `HashMap::insert` model: replace in place, or add at the end. -/
def hmInsert {α : Type} (m : List (String × α)) (k : String) (v : α) :
    List (String × α) :=
  match m with
  | [] => [(k, v)]
  | p :: rest => if p.1 = k then (k, v) :: rest else p :: hmInsert rest k v

/-! ## String-primitive models

Rust `str` methods are modelled structurally on character lists (Lean's
built-in `String.splitOn`/`trim`/... are avoided: they are not
kernel-reducible).  Rust's Unicode-aware `trim`/`to_lowercase` agree with the
per-character models on ASCII, the only alphabet the source's fixed tokens
use. -/

/-- Rust `str::split(sep)` (on a `char`): always a non-empty list of pieces. -/
def splitChar (sep : Char) : List Char → List (List Char)
  | [] => [[]]
  | c :: rest =>
    if c = sep then [] :: splitChar sep rest
    else
      match splitChar sep rest with
      | [] => [[c]]
      | h :: t => (c :: h) :: t

/-- Rust `str::split(sep)` on strings. -/
def strSplitChar (s : String) (sep : Char) : List String :=
  (splitChar sep s.toList).map String.mk

/-- Rust `str::trim`. -/
def strTrim (s : String) : String :=
  String.mk (((s.toList.dropWhile Char.isWhitespace).reverse.dropWhile
    Char.isWhitespace).reverse)

/-- Rust `str::to_lowercase` (per-character; identical on ASCII). -/
def strToLower (s : String) : String := String.mk (s.toList.map Char.toLower)

/-- Rust `str::starts_with(&str)`. -/
def strStartsWith (s pre : String) : Bool := pre.toList.isPrefixOf s.toList

/-- Rust `str::ends_with(&str)`. -/
def strEndsWith (s suf : String) : Bool := suf.toList.reverse.isPrefixOf s.toList.reverse

/-- `Vec::join(sep)`. -/
def joinSep (sep : String) : List String → String
  | [] => ""
  | [x] => x
  | x :: y :: rest => x ++ sep ++ joinSep sep (y :: rest)

/-! ## JSON serialization (`serde_json` `Display`/`to_string`, compact form) -/

/-- Escape one character as in `serde_json`'s compact string serialization. -/
def escapeChar (c : Char) : String :=
  if c = '"' then "\\\""
  else if c = '\\' then "\\\\"
  else if c = '\n' then "\\n"
  else if c = '\r' then "\\r"
  else if c = '\t' then "\\t"
  else if c.toNat < 0x20 then
    let hex := Nat.toDigits 16 c.toNat
    "\\u" ++ String.mk (List.replicate (4 - hex.length) '0') ++ String.mk hex
  else String.mk [c]

/-- `serde_json` compact serialization of a JSON string. -/
def renderString (s : String) : String :=
  "\"" ++ String.join (s.toList.map escapeChar) ++ "\""

/-- Serialization of a JSON number.  Integral values print as decimal integers
(the `i64`/`u64` case, and the only case exercised by the theorems below);
non-integral rationals stand in for the f64 shortest-representation printing. -/
def renderNum (q : ℚ) : String :=
  if q.den = 1 then toString q.num else toString q

mutual

/-- Model of `serde_json::Value::to_string()` (compact serialization; object
fields are already key-sorted in the `Json.obj` representation, matching
`BTreeMap` iteration order). -/
def Json.render : Json → String
  | .null => "null"
  | .bool b => if b then "true" else "false"
  | .num q => renderNum q
  | .str s => renderString s
  | .arr xs => "[" ++ renderList xs ++ "]"
  | .obj fs => "\x7b" ++ renderFields fs ++ "\x7d"

def renderList : List Json → String
  | [] => ""
  | [x] => x.render
  | x :: y :: rest => x.render ++ "," ++ renderList (y :: rest)

def renderFields : List (String × Json) → String
  | [] => ""
  | [(k, v)] => renderString k ++ ":" ++ v.render
  | (k, v) :: p :: rest => renderString k ++ ":" ++ v.render ++ "," ++ renderFields (p :: rest)

end

/-! ## `value_to_text` (executor.rs lines 216-245) -/

/-- `Vec::join("\n")`. -/
def textJoin (xs : List String) : String := joinSep "\n" xs

mutual

/-- Model of the free function `value_to_text` in `graph/executor.rs`: convert a
JSON value to readable text.  A one-entry object keyed `result`, `answer` or
`response` unwraps recursively (the source's `obj.get("result").or(...)` chain,
which on a one-entry map hits exactly when that sole key is one of the three). -/
def valueToText : Json → String
  | .str s => s
  | .obj [(k, v)] =>
    if k = "result" ∨ k = "answer" ∨ k = "response" then valueToText v
    else "**" ++ k ++ "**: " ++ valueToText v
  | .obj fields => textJoin (textFields fields)
  | .arr elems => textJoin (textElems elems)
  | .num q => renderNum q
  | .bool b => if b then "true" else "false"
  | .null => ""

def textFields : List (String × Json) → List String
  | [] => []
  | (k, v) :: rest => ("**" ++ k ++ "**: " ++ valueToText v) :: textFields rest

def textElems : List Json → List String
  | [] => []
  | v :: rest => ("- " ++ valueToText v) :: textElems rest

end

/-! ## State store (`state/store.rs`) -/

/-- Model of `ReducerType` (`state/schema.rs`). -/
inductive ReducerType where
  | overwrite | append | max | min | merge
deriving Repr, DecidableEq

/-- Model of `WorkflowState`: current field values plus per-field reducers, both
`HashMap`s modelled as association lists. -/
structure WorkflowState where
  fields : List (String × Json)
  reducers : List (String × ReducerType)
deriving Repr

namespace WorkflowState

/-- `WorkflowState::empty`. -/
def empty : WorkflowState := ⟨[], []⟩

/-- `WorkflowState::get`. -/
def get (st : WorkflowState) (key : String) : Option Json := hmGet st.fields key

/-- `WorkflowState::update` (store.rs lines 44-95): route the write through the
field's reducer, defaulting to `overwrite` for undeclared fields. -/
def update (st : WorkflowState) (key : String) (value : Json) : WorkflowState :=
  match (hmGet st.reducers key).getD .overwrite with
  | .overwrite => { st with fields := hmInsert st.fields key value }
  | .append =>
    -- `entry(key).or_insert(Value::Array(vec![]))`, then push/extend when the
    -- entry is an array; a pre-existing non-array entry is left untouched.
    match hmGet st.fields key with
    | none =>
      let a : List Json := []
      let newArr := match value with
        | .arr items => a ++ items
        | other => a ++ [other]
      { st with fields := hmInsert st.fields key (.arr newArr) }
    | some (.arr a) =>
      let newArr := match value with
        | .arr items => a ++ items
        | other => a ++ [other]
      { st with fields := hmInsert st.fields key (.arr newArr) }
    | some _ => st
  | .max =>
    match value.asNum with
    | none => st
    | some n =>
      match (hmGet st.fields key).bind Json.asNum with
      | none => { st with fields := hmInsert st.fields key value }
      | some c =>
        if n > c then { st with fields := hmInsert st.fields key value } else st
  | .min =>
    match value.asNum with
    | none => st
    | some n =>
      match (hmGet st.fields key).bind Json.asNum with
      | none => { st with fields := hmInsert st.fields key value }
      | some c =>
        if n < c then { st with fields := hmInsert st.fields key value } else st
  | .merge =>
    -- `entry(key).or_insert(Value::Object(Map::new()))`, then shallow-merge when
    -- both the entry and the incoming value are objects.
    match hmGet st.fields key, value with
    | none, .obj newFs =>
      let merged := newFs.foldl (fun acc p => mapInsert acc p.1 p.2) []
      { st with fields := hmInsert st.fields key (.obj merged) }
    | none, _ => { st with fields := hmInsert st.fields key (.obj []) }
    | some (.obj curFs), .obj newFs =>
      let merged := newFs.foldl (fun acc p => mapInsert acc p.1 p.2) curFs
      { st with fields := hmInsert st.fields key (.obj merged) }
    | some _, _ => st

/-- `WorkflowState::get_path`: dotted-path read, the leftmost segment against
the field map and the rest through `Value::get`. -/
def getPath (st : WorkflowState) (path : String) : Option Json :=
  match strSplitChar path '.' with
  | [] => none
  | p0 :: rest => (hmGet st.fields p0).bind (fun v => walk v rest)
where
  walk : Json → List String → Option Json
    | v, [] => some v
    | v, p :: ps => (v.get p).bind (fun v' => walk v' ps)

/-- `WorkflowState::to_json`: collect the `HashMap` into a `serde_json::Map`
(`BTreeMap`), i.e. a key-sorted object. -/
def toJson (st : WorkflowState) : Json :=
  .obj (st.fields.foldl (fun acc p => mapInsert acc p.1 p.2) [])

end WorkflowState

/-! ## Condition language (`condition/ast.rs`, `condition/evaluator.rs`,
`condition/parser.rs`)

Byte indices in the source's string slicing coincide with character indices on
ASCII input (all operator tokens are ASCII), so slicing is modelled on
character lists. -/

/-- Model of `ast::Literal`.  `Literal::Number(f64)` carries a rational. -/
inductive Literal where
  | str (s : String)
  | num (q : ℚ)
  | bool (b : Bool)
  | null
deriving Repr, DecidableEq

/-- Model of `ast::CompareOp`. -/
inductive CompareOp where
  | eq | notEq | gt | gte | lt | lte | contains
deriving Repr, DecidableEq

/-- Model of `ast::Expression`.  `tt`/`ff` stand for `Expression::True` /
`Expression::False`. -/
inductive Expression where
  | compare (left : String) (op : CompareOp) (right : Literal)
  | and (l r : Expression)
  | or (l r : Expression)
  | not (e : Expression)
  | tt
  | ff
deriving Repr, DecidableEq

/-- `f64::EPSILON` = 2⁻⁵², as an exact rational. -/
def epsilonF64 : ℚ := 1 / 2 ^ 52

/-- Rust `str::contains(&str)`: substring test. -/
def strContains (s pat : String) : Bool :=
  (List.range (s.toList.length + 1)).any (fun i => pat.toList.isPrefixOf (s.toList.drop i))

/-- Model of `evaluator::values_equal`. -/
def valuesEqual (left : Option Json) (right : Literal) : Bool :=
  match left, right with
  | none, .null => true
  | none, _ => false
  | some .null, .null => true
  | some (.str s), .str rs => s = rs
  | some (.num n), .num rn => |n - rn| < epsilonF64
  | some (.bool b), .bool rb => b = rb
  | _, _ => false

/-- Model of `evaluator::compare_numbers`. -/
def compareNumbers (left : Option Json) (right : Literal) (cmp : ℚ → ℚ → Bool) : Bool :=
  match left, right with
  | some (.num n), .num rn => cmp n rn
  | _, _ => false

/-- Model of `evaluator::check_contains`. -/
def checkContains (left : Option Json) (right : Literal) : Bool :=
  match left, right with
  | some (.str s), .str substr => strContains s substr
  | some (.arr a), .str val => a.any (fun v => v.asStr = some val)
  | some (.arr a), .num val =>
    a.any (fun v => match v.asNum with
      | some f => |f - val| < epsilonF64
      | none => false)
  | some (.arr a), .bool val => a.any (fun v => v.asBool = some val)
  | _, _ => false

/-- Model of `evaluator::evaluate_compare`. -/
def evaluateCompare (left : String) (op : CompareOp) (right : Literal)
    (st : WorkflowState) : Bool :=
  let leftValue := st.getPath left
  match op with
  | .eq => valuesEqual leftValue right
  | .notEq => !valuesEqual leftValue right
  | .gt => compareNumbers leftValue right (fun a b => decide (a > b))
  | .gte => compareNumbers leftValue right (fun a b => decide (a ≥ b))
  | .lt => compareNumbers leftValue right (fun a b => decide (a < b))
  | .lte => compareNumbers leftValue right (fun a b => decide (a ≤ b))
  | .contains => checkContains leftValue right

/-- Model of `evaluator::evaluate`. -/
def evaluate : Expression → WorkflowState → Bool
  | .tt, _ => true
  | .ff, _ => false
  | .compare l op r, st => evaluateCompare l op r st
  | .and a b, st => evaluate a st && evaluate b st
  | .or a b, st => evaluate a st || evaluate b st
  | .not e, st => !evaluate e st

/-- Digit list to natural number. -/
def digitsToNat (ds : List Char) : ℕ :=
  ds.foldl (fun a c => a * 10 + (c.toNat - '0'.toNat)) 0

/-- Model of Rust `f64::from_str` on its finite-value grammar
(`[+-]? (digits [. digits?] | . digits) ([eE] [+-]? digits)?`), producing the
exact rational; the non-finite spellings (`inf`/`NaN`) are not modelled. -/
def parseF64 (s : String) : Option ℚ :=
  let cs := s.toList
  let (sgn, cs) := match cs with
    | '+' :: r => ((1 : ℚ), r)
    | '-' :: r => ((-1 : ℚ), r)
    | _ => ((1 : ℚ), cs)
  let ip := cs.takeWhile Char.isDigit
  let cs := cs.drop ip.length
  let (fp, cs) := match cs with
    | '.' :: r => (r.takeWhile Char.isDigit, r.drop (r.takeWhile Char.isDigit).length)
    | _ => (([] : List Char), cs)
  if ip.isEmpty && fp.isEmpty then none
  else
    let mantissa : ℚ := (digitsToNat ip : ℚ) + (digitsToNat fp : ℚ) / (10 : ℚ) ^ fp.length
    match cs with
    | [] => some (sgn * mantissa)
    | c :: r =>
      if c = 'e' ∨ c = 'E' then
        let (esgn, r) := match r with
          | '+' :: r2 => ((1 : ℤ), r2)
          | '-' :: r2 => ((-1 : ℤ), r2)
          | _ => ((1 : ℤ), r)
        let ed := r.takeWhile Char.isDigit
        let rest := r.drop ed.length
        if ed.isEmpty ∨ !rest.isEmpty then none
        else some (sgn * mantissa * (10 : ℚ) ^ (esgn * (digitsToNat ed : ℤ)))
      else none

/-- Model of `parser::parse_literal`.  (On the one-character inputs `'` and `"`
the source panics on an out-of-order slice; the model returns the empty
string, a point no theorem touches.) -/
def parseLiteral (input : String) : Except String Literal :=
  let input := strTrim input
  if input = "null" then .ok .null
  else if input = "true" then .ok (.bool true)
  else if input = "false" then .ok (.bool false)
  else if (strStartsWith input "'" && strEndsWith input "'") ||
      (strStartsWith input "\"" && strEndsWith input "\"") then
    .ok (.str (String.mk (input.toList.drop 1).dropLast))
  else
    match parseF64 input with
    | some n => .ok (.num n)
    | none => .error ("Could not parse literal: " ++ input)

/-- Model of `parser::find_operator`: scan for `op` outside quoted stretches;
`cs` is the whole input, the first list argument the unscanned tail at index
`i`. -/
def findOpAux (cs : List Char) (op : List Char) :
    List Char → ℕ → Bool → Option ℕ
  | [], _, _ => none
  | c :: rest, i, inString =>
    if c = '\'' ∨ c = '"' then findOpAux cs op rest (i + 1) (!inString)
    else if !inString && op.isPrefixOf (cs.drop i) then some i
    else findOpAux cs op rest (i + 1) inString

/-- Model of `parser::find_operator`. -/
def findOperator (input : String) (op : String) : Option ℕ :=
  findOpAux input.toList op.toList input.toList 0 false

/-- Model of `parser::parse_comparison`: try the operators longest-first and
split at the first occurrence found. -/
def parseComparison (input : String) : Except String Expression :=
  go [("!=", .notEq), (">=", .gte), ("<=", .lte), ("==", .eq),
      (">", .gt), ("<", .lt), (" contains ", .contains)]
where
  go : List (String × CompareOp) → Except String Expression
    | [] => .error ("Could not parse condition: " ++ input)
    | (opStr, op) :: rest =>
      match findOperator input opStr with
      | some pos =>
        let left := strTrim (String.mk (input.toList.take pos))
        let rightStr := strTrim (String.mk (input.toList.drop (pos + opStr.length)))
        match parseLiteral rightStr with
        | .ok lit => .ok (.compare left op lit)
        | .error e => .error e
      | none => go rest

/-- Model of `parser::try_parse_compound`: scan for a top-level ` and ` / ` or `
(outside quotes and parentheses) and recurse on both sides through the supplied
parse callback. -/
def tpcAux (recParse : String → Except String Expression) (all : List Char) :
    List Char → ℕ → ℤ → Bool → Except String (Option Expression)
  | [], _, _, _ => .ok none
  | c :: rest, i, depth, inString =>
    if c = '\'' ∨ c = '"' then tpcAux recParse all rest (i + 1) depth (!inString)
    else if !inString then
      if c = '(' then tpcAux recParse all rest (i + 1) (depth + 1) inString
      else if c = ')' then tpcAux recParse all rest (i + 1) (depth - 1) inString
      else if depth = 0 then
        if (all.drop i).take 5 = " and ".toList then
          match recParse (String.mk (all.take i)) with
          | .error e => .error e
          | .ok l =>
            match recParse (String.mk (all.drop (i + 5))) with
            | .error e => .error e
            | .ok r => .ok (some (.and l r))
        else if (all.drop i).take 4 = " or ".toList then
          match recParse (String.mk (all.take i)) with
          | .error e => .error e
          | .ok l =>
            match recParse (String.mk (all.drop (i + 4))) with
            | .error e => .error e
            | .ok r => .ok (some (.or l r))
        else tpcAux recParse all rest (i + 1) depth inString
      else tpcAux recParse all rest (i + 1) depth inString
    else tpcAux recParse all rest (i + 1) depth inString

/-- Model of `parser::parse`, with fuel for the recursion into the strictly
shorter halves of a compound expression (the fuel in `condParse` is always
sufficient, so the 0-fuel error branch is unreachable). -/
def parseCondFuel : ℕ → String → Except String Expression
  | 0, input => .error ("Could not parse condition: " ++ input)
  | fuel + 1, input =>
    let input := strTrim input
    if input = "true" then .ok .tt
    else if input = "false" then .ok .ff
    else
      match tpcAux (parseCondFuel fuel) input.toList input.toList 0 0 false with
      | .error e => .error e
      | .ok (some e) => .ok e
      | .ok none => parseComparison input

/-- `condition::parse`. -/
def condParse (input : String) : Except String Expression :=
  parseCondFuel (input.length + 1) input

/-! ## JSON parsing (model of `serde_json::from_str::<Value>`)

A recursive-descent reading of the JSON grammar serde implements: strict
number syntax, the four JSON whitespace characters, duplicate object keys
resolved last-wins into the key-sorted map.  `\u` escapes outside the
basic multilingual plane (surrogate pairs) are not modelled; no theorem
depends on them. -/

/-- The left and right curly brace characters (kept out of literals). -/
def lbrace : Char := Char.ofNat 123

/-- Right curly brace. -/
def rbrace : Char := Char.ofNat 125

/-- JSON whitespace skipping (space, tab, newline, carriage return). -/
def skipWs (cs : List Char) : List Char :=
  cs.dropWhile (fun c => c = ' ' ∨ c = '\t' ∨ c = '\n' ∨ c = '\r')

/-- Hex digit test. -/
def isHexDig (c : Char) : Bool :=
  c.isDigit || ('a' ≤ c && c ≤ 'f') || ('A' ≤ c && c ≤ 'F')

/-- Hex digit value. -/
def hexVal (c : Char) : ℕ :=
  if c.isDigit then c.toNat - '0'.toNat
  else if 'a' ≤ c ∧ c ≤ 'f' then c.toNat - 'a'.toNat + 10
  else if 'A' ≤ c ∧ c ≤ 'F' then c.toNat - 'A'.toNat + 10
  else 0

/-- Parse the body of a JSON string (the opening quote already consumed),
returning the decoded string and the remaining input. -/
def parseJsonStrAux : List Char → Option (List Char × List Char)
  | [] => none
  | '"' :: rest => some ([], rest)
  | '\\' :: e :: rest =>
    if e = 'u' then
      match rest with
      | h1 :: h2 :: h3 :: h4 :: rest' =>
        if isHexDig h1 && isHexDig h2 && isHexDig h3 && isHexDig h4 then
          let code := ((hexVal h1 * 16 + hexVal h2) * 16 + hexVal h3) * 16 + hexVal h4
          (parseJsonStrAux rest').map (fun p => (Char.ofNat code :: p.1, p.2))
        else none
      | _ => none
    else
      let dec : Option Char :=
        if e = '"' then some '"'
        else if e = '\\' then some '\\'
        else if e = '/' then some '/'
        else if e = 'n' then some '\n'
        else if e = 't' then some '\t'
        else if e = 'r' then some '\r'
        else if e = 'b' then some (Char.ofNat 8)
        else if e = 'f' then some (Char.ofNat 12)
        else none
      match dec with
      | some c => (parseJsonStrAux rest).map (fun p => (c :: p.1, p.2))
      | none => none
  | c :: rest =>
    if c.toNat < 0x20 then none
    else (parseJsonStrAux rest).map (fun p => (c :: p.1, p.2))

/-- Parse a JSON number (strict JSON grammar: no leading `+`, no leading zeros,
a fraction/exponent must carry digits), as an exact rational. -/
def parseJsonNumber (cs : List Char) : Option (ℚ × List Char) :=
  let (sgn, cs1) := match cs with
    | '-' :: r => ((-1 : ℚ), r)
    | _ => ((1 : ℚ), cs)
  let ip := cs1.takeWhile Char.isDigit
  if ip.isEmpty then none
  else if ip.length > 1 ∧ ip.headD '0' = '0' then none
  else
    let cs2 := cs1.drop ip.length
    let (fp, cs3) := match cs2 with
      | '.' :: r => (r.takeWhile Char.isDigit, r.drop (r.takeWhile Char.isDigit).length)
      | _ => (([] : List Char), cs2)
    if (match cs2 with | '.' :: _ => fp.isEmpty | _ => false) then none
    else
      let mantissa : ℚ := (digitsToNat ip : ℚ) + (digitsToNat fp : ℚ) / (10 : ℚ) ^ fp.length
      match cs3 with
      | c :: r =>
        if c = 'e' ∨ c = 'E' then
          let (esgn, r2) := match r with
            | '+' :: r3 => ((1 : ℤ), r3)
            | '-' :: r3 => ((-1 : ℤ), r3)
            | _ => ((1 : ℤ), r)
          let ed := r2.takeWhile Char.isDigit
          if ed.isEmpty then none
          else some (sgn * mantissa * (10 : ℚ) ^ (esgn * (digitsToNat ed : ℤ)),
            r2.drop ed.length)
        else some (sgn * mantissa, cs3)
      | [] => some (sgn * mantissa, cs3)

mutual

/-- Parse one JSON value, returning it and the remaining input. -/
def parseVal : ℕ → List Char → Option (Json × List Char)
  | 0, _ => none
  | fuel + 1, cs =>
    match skipWs cs with
    | 'n' :: 'u' :: 'l' :: 'l' :: rest => some (.null, rest)
    | 't' :: 'r' :: 'u' :: 'e' :: rest => some (.bool true, rest)
    | 'f' :: 'a' :: 'l' :: 's' :: 'e' :: rest => some (.bool false, rest)
    | '"' :: rest =>
      (parseJsonStrAux rest).map (fun p => (.str (String.mk p.1), p.2))
    | '[' :: rest =>
      (match skipWs rest with
       | ']' :: r => some (.arr [], r)
       | _ => parseArrLoop fuel rest [])
    | c :: rest =>
      if c = lbrace then
        (match skipWs rest with
         | r :: r2 => if r = rbrace then some (.obj [], r2) else parseObjLoop fuel rest []
         | [] => none)
      else if c = '-' ∨ c.isDigit then
        (parseJsonNumber (c :: rest)).map (fun p => (.num p.1, p.2))
      else none
    | [] => none

/-- Array elements after the first `[` (non-empty case). -/
def parseArrLoop : ℕ → List Char → List Json → Option (Json × List Char)
  | 0, _, _ => none
  | fuel + 1, cs, acc =>
    match parseVal fuel cs with
    | none => none
    | some (v, rest) =>
      match skipWs rest with
      | ',' :: r => parseArrLoop fuel r (acc ++ [v])
      | ']' :: r => some (.arr (acc ++ [v]), r)
      | _ => none

/-- Object members (non-empty case); duplicate keys keep the last value. -/
def parseObjLoop : ℕ → List Char → List (String × Json) → Option (Json × List Char)
  | 0, _, _ => none
  | fuel + 1, cs, acc =>
    match skipWs cs with
    | '"' :: r =>
      (match parseJsonStrAux r with
       | none => none
       | some (key, r2) =>
         match skipWs r2 with
         | ':' :: r3 =>
           (match parseVal fuel r3 with
            | none => none
            | some (v, r4) =>
              let acc := mapInsert acc (String.mk key) v
              match skipWs r4 with
              | ',' :: r5 => parseObjLoop fuel r5 acc
              | c :: r5 => if c = rbrace then some (.obj acc, r5) else none
              | [] => none)
         | _ => none)
    | _ => none

end

/-- Model of `serde_json::from_str::<Value>`: a single value, then only
whitespace to the end of input. -/
def jsonParse (s : String) : Option Json :=
  match parseVal (2 * s.length + 4) s.toList with
  | some (v, rest) => if (skipWs rest).isEmpty then some v else none
  | none => none

/-! ## Graph executor (`graph/executor.rs`) -/

/-- Model of `graph::types::WaitMode`. -/
inductive WaitMode where
  | all | any
deriving Repr, DecidableEq

/-- Model of `CompiledNode`.  The `Agent` capability behind `agent:
Arc<dyn Agent>` is a deterministic input→output function that may fail. -/
structure CompiledNode where
  id : String
  agent : String → Except String String
  dependsOn : List String
  whenCond : Option String
  outputs : List (String × String)
  waitMode : WaitMode

/-- Model of `GraphAgent`: the constructor keeps the declared node list; the
id-keyed `HashMap` and `node_order` are derived from it below exactly as
`GraphAgent::new` builds them. -/
structure GraphAgent where
  name : String
  description : String
  nodes : List CompiledNode

namespace GraphAgent

/-- `node_order`: ids in declaration order. -/
def nodeOrder (g : GraphAgent) : List String := g.nodes.map (·.id)

/-- The `id → CompiledNode` map (`collect` keeps the last node on a duplicate
id). -/
def nodesMap (g : GraphAgent) : List (String × CompiledNode) :=
  g.nodes.foldl (fun m n => hmInsert m n.id n) []

/-- `self.nodes[id]` / `self.nodes.get(id)`. -/
def lookupNode (g : GraphAgent) (id : String) : Option CompiledNode :=
  hmGet g.nodesMap id

/-- `self.nodes.values()` (order-insensitive uses only). -/
def nodesMapValues (g : GraphAgent) : List CompiledNode := g.nodesMap.map (·.2)

/-- `GraphAgent::dependencies_satisfied`. -/
def dependenciesSatisfied (node : CompiledNode) (completed : List String) : Bool :=
  if node.dependsOn.isEmpty then true
  else match node.waitMode with
    | .all => node.dependsOn.all (fun d => completed.contains d)
    | .any => node.dependsOn.any (fun d => completed.contains d)

/-- `GraphAgent::condition_met`: parse failure logs and yields `false`. -/
def conditionMet (node : CompiledNode) (st : WorkflowState) : Bool :=
  match node.whenCond with
  | none => true
  | some condStr =>
    match condParse condStr with
    | .ok expr => evaluate expr st
    | .error _ => false

/-- `GraphAgent::get_ready_nodes`: not-yet-completed nodes, in declaration
order, whose dependencies are satisfied and condition holds. -/
def getReadyNodes (g : GraphAgent) (completed : List String) (st : WorkflowState) :
    List String :=
  (g.nodeOrder.filter (fun id => !completed.contains id)).filter (fun id =>
    match g.lookupNode id with
    | some node => dependenciesSatisfied node completed && conditionMet node st
    | none => false)

/-- `GraphAgent::build_node_input`. -/
def buildNodeInput (originalInput : String) (node : CompiledNode)
    (st : WorkflowState) : String :=
  if node.dependsOn.isEmpty then originalInput
  else
    match node.dependsOn.getLast? with
    | none => originalInput
    | some lastDep =>
      match st.get ("output." ++ lastDep) with
      | some (.str s) => s
      | some depOutput => depOutput.render
      | none => originalInput

/-- `extract_json_path`: dotted-path walk through `Value::get`. -/
def extractJsonPath (json : Json) (path : String) : Option Json :=
  (strSplitChar path '.').foldlM (fun c part => c.get part) json

/-- `GraphAgent::apply_outputs`: JSON outputs are stored parsed at
`output.<id>` and the node's output map extracts into mapped state keys;
non-JSON outputs are stored as a string and the map is skipped. -/
def applyOutputs (node : CompiledNode) (output : String) (st : WorkflowState) :
    WorkflowState :=
  match jsonParse output with
  | some json =>
    let st1 := st.update ("output." ++ node.id) json
    node.outputs.foldl (fun s p =>
      match extractJsonPath json p.2 with
      | some value => s.update p.1 value
      | none => s) st1
  | none => st.update ("output." ++ node.id) (.str output)

/-- One node execution inside the ready loop of `GraphAgent::run`: on success
apply outputs, on error record `<id>.error`; either way mark completed. -/
def execNode (g : GraphAgent) (input : String) (acc : WorkflowState × List String)
    (nodeId : String) : WorkflowState × List String :=
  match g.lookupNode nodeId with
  | none => acc
  | some node =>
    let nodeInput := buildNodeInput input node acc.1
    match node.agent nodeInput with
    | .ok output => (applyOutputs node output acc.1, nodeId :: acc.2)
    | .error e => (acc.1.update (nodeId ++ ".error") (.str e), nodeId :: acc.2)

/-- The scheduler loop of `GraphAgent::run` (at most 100 iterations; stop when
no node is ready). -/
def runLoop (g : GraphAgent) (input : String) :
    ℕ → WorkflowState → List String → WorkflowState × List String
  | 0, st, completed => (st, completed)
  | fuel + 1, st, completed =>
    let ready := g.getReadyNodes completed st
    if ready.isEmpty then (st, completed)
    else
      let acc := ready.foldl (g.execNode input) (st, completed)
      runLoop g input fuel acc.1 acc.2

/-- `GraphAgent::run` up to (and including) the loop: final state and
completed set. -/
def runFull (g : GraphAgent) (input : String) : WorkflowState × List String :=
  let st0 := WorkflowState.empty.update "input" (.str input)
  runLoop g input 100 st0 []

/-- `str::strip_prefix("output.")`. -/
def stripOutputKey (k : String) : Option String :=
  if "output.".toList.isPrefixOf k.toList then some (String.mk (k.toList.drop 7))
  else none

/-- The enumerate-and-separate loop at the end of `format_response`. -/
def combineWithSep (ts : List String) : String :=
  (ts.foldl (fun (acc : String × Bool) t =>
    (acc.1 ++ (if acc.2 then "" else "\n\n---\n\n") ++ t, false)) ("", true)).1

/-- `GraphAgent::format_response`: project the `output.<id>` entries of
terminal nodes out of the state JSON (whose object iterates in key order),
returning the single value bare or the multi-value separated concatenation. -/
def formatResponse (g : GraphAgent) (st : WorkflowState) : String :=
  let allDeps := g.nodesMapValues.flatMap (·.dependsOn)
  let terminalNodes := (g.nodesMapValues.filter (fun n => !allDeps.contains n.id)).map (·.id)
  let outputs : List (String × Json) :=
    match st.toJson with
    | .obj fields => fields.filter (fun p =>
        match stripOutputKey p.1 with
        | some nodeId => terminalNodes.contains nodeId
        | none => false)
    | _ => []
  match outputs with
  | [(_, v)] => valueToText v
  | outs => combineWithSep (outs.map (fun p => valueToText p.2))

/-- `GraphAgent::run` (always `Ok`). -/
def run (g : GraphAgent) (input : String) : Except String String :=
  .ok (g.formatResponse (g.runFull input).1)

end GraphAgent

/-! ## Part/Content (`adk/model.rs`) and agent events (`adk/agent/mod.rs`)

The `adk::` module path becomes the `Adk` namespace (`Part` alone would clash
with a Mathlib name). -/

namespace Adk

/-- Model of `adk::model::Part`. -/
inductive Part where
  | text (s : String)
  | thinking (s : String)
  | functionCall (name : String) (args : Json) (thoughtSignature : Option String)
  | functionResponse (name : String) (response : Json)
deriving Repr, DecidableEq

/-- Model of `adk::model::Content`. -/
structure Content where
  role : String
  parts : List Part
deriving Repr, DecidableEq

/-- Model of `adk::agent::AgentEvent`. -/
inductive AgentEvent where
  | thought (s : String)
  | toolCall (name : String) (args : Json)
  | toolResult (name : String) (result : Json)
  | answer (s : String)
  | error (s : String)
  | log (s : String)
deriving Repr, DecidableEq

/-! ## LLM turn-loop agent (`adk/agent/llm.rs`)

`run` is instrumented with a ghost trace recording each model call and each
tool execution, so that theorems can speak about "model called once" and "no
tool executed"; the trace has no influence on the computed result. -/

/-- Ghost observation of `LLMAgent::run`'s side interactions. -/
inductive RunEvent where
  | modelCall
  | toolExec (name : String)
deriving Repr, DecidableEq

/-- Model of `LLMAgent`: the `Model` capability is a deterministic function of
the history, each tool a deterministic function of its arguments. -/
structure LLMAgent where
  name : String
  description : String
  instruction : String
  model : List Content → Except String Content
  tools : List (String × (Json → Except String Json))

namespace LLMAgent

/-- `LLMAgent::get_tool` through `tool_map` (`collect` keeps the last index on
a duplicated tool name). -/
def getTool (a : LLMAgent) (name : String) : Option (Json → Except String Json) :=
  (a.tools.reverse.find? (fun p => p.1 = name)).map (·.2)

/-- The text-first scan of `run`: first non-empty `Text` part, if any. -/
def findNonEmptyText : List Part → Option String
  | [] => none
  | .text t :: rest => if t ≠ "" then some t else findNonEmptyText rest
  | _ :: rest => findNonEmptyText rest

/-- The `filter_map` collecting `FunctionCall` parts in order. -/
def functionCalls : List Part → List (String × Json)
  | [] => []
  | .functionCall n args _ :: rest => (n, args) :: functionCalls rest
  | _ :: rest => functionCalls rest

/-- `json!({ "error": msg })`. -/
def jsonErr (msg : String) : Json := .obj [("error", .str msg)]

/-- The tool-dispatch loop of `run`: build one `FunctionResponse` per call
(unknown tool and tool failure become `{"error": ...}` payloads). -/
def execCalls (a : LLMAgent) : List (String × Json) → List Part × List RunEvent
  | [] => ([], [])
  | (name, args) :: rest =>
    let r : Json × List RunEvent :=
      match a.getTool name with
      | some t =>
        (match t args with
         | .ok res => (res, [RunEvent.toolExec name])
         | .error e => (jsonErr e, [RunEvent.toolExec name]))
      | none => (jsonErr ("Tool " ++ name ++ " not found"), [])
    let tail := execCalls a rest
    (Part.functionResponse name r.1 :: tail.1, r.2 ++ tail.2)

/-- The seeded history of `run`/`run_stream`. -/
def initHistory (a : LLMAgent) (input : String) : List Content :=
  [⟨"system", [.text a.instruction]⟩, ⟨"user", [.text input]⟩]

/-- The turn loop of `LLMAgent::run` (at most `fuel` model calls; `fuel` is 10
at the top level).  Returned alongside the result is the ghost trace. -/
def runAux (a : LLMAgent) :
    ℕ → List Content → List RunEvent → Except String String × List RunEvent
  | 0, _, trace => (.error "Max turns reached", trace)
  | fuel + 1, history, trace =>
    let trace := trace ++ [RunEvent.modelCall]
    match a.model history with
    | .error e => (.error e, trace)
    | .ok response =>
      match findNonEmptyText response.parts with
      | some text => (.ok text, trace)
      | none =>
        let calls := functionCalls response.parts
        if calls.isEmpty then (.ok "", trace)
        else
          let r := execCalls a calls
          runAux a fuel (history ++ [response, ⟨"user", r.1⟩]) (trace ++ r.2)

/-- `LLMAgent::run`. -/
def run (a : LLMAgent) (input : String) : Except String String × List RunEvent :=
  runAux a 10 (a.initHistory input) []

/-- `push_str` concatenation of all `Text` parts (`run_stream`'s
`text_content`). -/
def concatTexts (parts : List Part) : String :=
  parts.foldl (fun acc p => match p with | .text t => acc ++ t | _ => acc) ""

/-- The tool-dispatch loop of `run_stream`, also producing the emitted
events. -/
def execCallsStream (a : LLMAgent) : List (String × Json) → List Part × List AgentEvent
  | [] => ([], [])
  | (name, args) :: rest =>
    let r : Json × List AgentEvent :=
      match a.getTool name with
      | some t =>
        (match t args with
         | .ok res => (res, [])
         | .error e => (jsonErr e, [.error ("Tool " ++ name ++ " failed: " ++ e)]))
      | none =>
        (jsonErr ("Tool " ++ name ++ " not found"),
         [.error ("Tool " ++ name ++ " not found")])
    let tail := execCallsStream a rest
    (Part.functionResponse name r.1 :: tail.1,
     .toolCall name args :: (r.2 ++ [.toolResult name r.1]) ++ tail.2)

/-- The turn loop of `LLMAgent::run_stream`; the second component is the
sequence of events sent into the channel. -/
def runStreamAux (a : LLMAgent) :
    ℕ → List Content → List AgentEvent → Except String String × List AgentEvent
  | 0, _, evs => (.error "Max turns reached", evs)
  | fuel + 1, history, evs =>
    match a.model history with
    | .error e => (.error e, evs)
    | .ok response =>
      let textContent := concatTexts response.parts
      let calls := functionCalls response.parts
      if calls.isEmpty then
        if textContent ≠ "" then (.ok textContent, evs ++ [.answer textContent])
        else (.ok "", evs)
      else
        let evs := if textContent ≠ "" then evs ++ [.thought textContent] else evs
        let r := execCallsStream a calls
        runStreamAux a fuel (history ++ [response, ⟨"user", r.1⟩]) (evs ++ r.2)

/-- `LLMAgent::run_stream`. -/
def runStream (a : LLMAgent) (input : String) :
    Except String String × List AgentEvent :=
  runStreamAux a 10 (a.initHistory input) []

end LLMAgent

/-! ## ReAct response classification (`adk/agent/react.rs`) -/

/-- Model of `ReActStep`. -/
inductive ReActStep where
  | thought (s : String)
  | action (tool : String) (args : Json)
  | finalAnswer (s : String)
deriving Repr, DecidableEq

/-- Rust `str::strip_prefix` with a literal pattern. -/
def stripPre (pre s : String) : Option String :=
  if pre.toList.isPrefixOf s.toList then some (String.mk (s.toList.drop pre.length))
  else none

/-- The part loop of `ReActAgent::parse_response`: first `Thinking` or
`FunctionCall` or qualifying `Text` part, in sequence order, decides the step
(`to_lowercase` is modelled per-character; identical on ASCII). -/
def parseResponseParts : List Part → ReActStep
  | [] => .thought ""
  | .thinking t :: _ => .thought t
  | .functionCall name args _ :: _ => .action name args
  | .text t :: rest =>
    let tt := strTrim t
    if strStartsWith (strToLower tt) "final answer:" then
      let answer := (((stripPre "Final Answer:" tt).orElse
        (fun _ => stripPre "final answer:" tt)).orElse
        (fun _ => stripPre "FINAL ANSWER:" tt)).getD tt
      .finalAnswer (strTrim answer)
    else if tt ≠ "" then .thought tt
    else parseResponseParts rest
  | .functionResponse _ _ :: rest => parseResponseParts rest

/-- `ReActAgent::parse_response`. -/
def parseResponse (response : Content) : ReActStep :=
  parseResponseParts response.parts

end Adk

/-! ## Shared infrastructure lemmas -/

theorem hmGet_nil {α : Type} (k : String) : hmGet ([] : List (String × α)) k = none := rfl

theorem hmGet_cons {α : Type} (p : String × α) (m : List (String × α)) (k : String) :
    hmGet (p :: m) k = if p.1 = k then some p.2 else hmGet m k := by
  by_cases h : p.1 = k <;> simp [hmGet, List.find?, h]

theorem hmGet_hmInsert_self {α : Type} (m : List (String × α)) (k : String) (v : α) :
    hmGet (hmInsert m k v) k = some v := by
  induction m with
  | nil => simp [hmInsert, hmGet_cons]
  | cons p rest ih =>
    by_cases h : p.1 = k
    · simp [hmInsert, h, hmGet_cons]
    · simpa [hmInsert, h, hmGet_cons] using ih

theorem hmGet_hmInsert_ne {α : Type} (m : List (String × α)) (k k' : String) (v : α)
    (h : k' ≠ k) : hmGet (hmInsert m k v) k' = hmGet m k' := by
  induction m with
  | nil => simp [hmInsert, hmGet_cons, hmGet_nil, Ne.symm h]
  | cons p rest ih =>
    by_cases hp : p.1 = k
    · have hne : ¬ p.1 = k' := by
        rw [hp]
        exact Ne.symm h
      rw [show hmInsert (p :: rest) k v = (k, v) :: rest by simp [hmInsert, hp]]
      rw [hmGet_cons, hmGet_cons, if_neg (Ne.symm h), if_neg hne]
    · rw [show hmInsert (p :: rest) k v = p :: hmInsert rest k v by simp [hmInsert, hp]]
      rw [hmGet_cons, hmGet_cons, ih]

theorem mem_hmInsert {α : Type} (m : List (String × α)) (k : String) (v : α)
    (q : String × α) (h : q ∈ hmInsert m k v) : q ∈ m ∨ q = (k, v) := by
  induction m with
  | nil => simpa [hmInsert] using h
  | cons p rest ih =>
    by_cases hp : p.1 = k
    · simp only [hmInsert, if_pos hp, List.mem_cons] at h
      rcases h with h | h
      · right; exact h
      · left; simp [h]
    · simp only [hmInsert, if_neg hp, List.mem_cons] at h
      rcases h with h | h
      · left; simp [h]
      · rcases ih h with h' | h'
        · left; simp [h']
        · right; exact h'

theorem string_data_append (a b : String) : (a ++ b).data = a.data ++ b.data := rfl

theorem string_length_append (a b : String) : (a ++ b).length = a.length + b.length := by
  show (a ++ b).data.length = a.data.length + b.data.length
  rw [string_data_append, List.length_append]

theorem string_append_left_cancel {a b c : String} (h : a ++ b = a ++ c) : b = c := by
  have hd : a.data ++ b.data = a.data ++ c.data := by
    rw [← string_data_append, ← string_data_append, h]
  exact String.ext (List.append_cancel_left hd)

theorem string_append_right_cancel {a b c : String} (h : a ++ c = b ++ c) : a = b := by
  have hd : a.data ++ c.data = b.data ++ c.data := by
    rw [← string_data_append, ← string_data_append, h]
  exact String.ext (List.append_cancel_right hd)

theorem workflow_update_reducers (st : WorkflowState) (k : String) (v : Json) :
    (st.update k v).reducers = st.reducers := by
  unfold WorkflowState.update
  rcases (hmGet st.reducers k).getD .overwrite <;> dsimp only <;>
    repeat' first | split | rfl

/-- In a state whose reducer table is empty (the graph executor's case) every
update is a plain overwrite. -/
theorem update_of_no_reducers (st : WorkflowState) (k : String) (v : Json)
    (h : st.reducers = []) :
    st.update k v = ⟨hmInsert st.fields k v, []⟩ := by
  unfold WorkflowState.update
  rw [h]
  rfl

theorem get_update_self_of_no_reducers (st : WorkflowState) (k : String) (v : Json)
    (h : st.reducers = []) : (st.update k v).get k = some v := by
  rw [update_of_no_reducers st k v h]
  exact hmGet_hmInsert_self _ _ _

theorem get_update_ne_of_no_reducers (st : WorkflowState) (k k' : String) (v : Json)
    (h : st.reducers = []) (hne : k' ≠ k) : (st.update k v).get k' = st.get k' := by
  rw [update_of_no_reducers st k v h]
  exact hmGet_hmInsert_ne _ _ _ _ hne

/-! ## C7 — scheduler input construction -/

/-- C7: `build_node_input` hands a dependency-free node the original run input;
otherwise it reads `output.<lastDep>` for the last declared dependency, passing
a JSON string verbatim, serializing any other JSON value, and falling back to
the original input when the entry is missing. -/
theorem C7_scheduler_input (original : String) (node : CompiledNode)
    (st : WorkflowState) :
    (node.dependsOn = [] → GraphAgent.buildNodeInput original node st = original) ∧
    ∀ lastDep, node.dependsOn.getLast? = some lastDep →
      ((∀ s, st.get ("output." ++ lastDep) = some (.str s) →
          GraphAgent.buildNodeInput original node st = s) ∧
       (∀ v, st.get ("output." ++ lastDep) = some v → (∀ s, v ≠ .str s) →
          GraphAgent.buildNodeInput original node st = v.render) ∧
       (st.get ("output." ++ lastDep) = none →
          GraphAgent.buildNodeInput original node st = original)) := by
  constructor
  · intro h
    simp [GraphAgent.buildNodeInput, h]
  · intro lastDep hLast
    have hne : node.dependsOn ≠ [] := by
      intro h
      rw [h] at hLast
      simp at hLast
    have hisEmpty : node.dependsOn.isEmpty = false := by
      simpa [List.isEmpty_iff] using hne
    refine ⟨?_, ?_, ?_⟩
    · intro s hget
      simp [GraphAgent.buildNodeInput, hisEmpty, hLast, hget]
    · intro v hget hnstr
      rcases v with _ | b | q | s | xs | fs
      · simp [GraphAgent.buildNodeInput, hisEmpty, hLast, hget]
      · simp [GraphAgent.buildNodeInput, hisEmpty, hLast, hget]
      · simp [GraphAgent.buildNodeInput, hisEmpty, hLast, hget]
      · exact absurd rfl (hnstr s)
      · simp [GraphAgent.buildNodeInput, hisEmpty, hLast, hget]
      · simp [GraphAgent.buildNodeInput, hisEmpty, hLast, hget]
    · intro hget
      simp [GraphAgent.buildNodeInput, hisEmpty, hLast, hget]

/-- Concrete inputs for the C7 witness. -/
def c7NodeDep : CompiledNode := ⟨"b", fun s => .ok s, ["x", "a"], none, [], .all⟩

/-- Dependency-free node for the C7 witness. -/
def c7NodeFree : CompiledNode := ⟨"z", fun s => .ok s, [], none, [], .all⟩

/-- State with a string dependency output. -/
def c7StStr : WorkflowState := WorkflowState.empty.update "output.a" (.str "hello")

/-- State with a non-string dependency output. -/
def c7StNum : WorkflowState := WorkflowState.empty.update "output.a" (.num 5)

theorem C7_scheduler_input_witness :
    GraphAgent.buildNodeInput "orig" c7NodeFree c7StStr = "orig" ∧
    GraphAgent.buildNodeInput "orig" c7NodeDep c7StStr = "hello" ∧
    GraphAgent.buildNodeInput "orig" c7NodeDep c7StNum = "5" ∧
    GraphAgent.buildNodeInput "orig" c7NodeDep WorkflowState.empty = "orig" := by
  refine ⟨?_, ?_, ?_, ?_⟩
  · exact (C7_scheduler_input "orig" c7NodeFree c7StStr).1 rfl
  · exact ((C7_scheduler_input "orig" c7NodeDep c7StStr).2 "a" rfl).1 "hello" (by decide)
  · have h := ((C7_scheduler_input "orig" c7NodeDep c7StNum).2 "a" rfl).2.1
      (.num 5) (by decide) (fun s => by simp)
    rw [h]
    decide
  · exact ((C7_scheduler_input "orig" c7NodeDep WorkflowState.empty).2 "a" rfl).2.2 rfl

/-! ## C8 — condition comparison semantics -/

/-- C8: on a missing dotted path, `== null` evaluates true and `!= null`
false; each ordering operator is false unless the state value is a JSON number
and the literal a number, in which case it is the numeric comparison. -/
theorem C8_condition_compare (path : String) (st : WorkflowState) :
    (st.getPath path = none →
      evaluateCompare path .eq .null st = true ∧
      evaluateCompare path .notEq .null st = false) ∧
    (∀ lit : Literal, ((∀ q, st.getPath path ≠ some (.num q)) ∨ ∀ m, lit ≠ .num m) →
      evaluateCompare path .gt lit st = false ∧
      evaluateCompare path .gte lit st = false ∧
      evaluateCompare path .lt lit st = false ∧
      evaluateCompare path .lte lit st = false) ∧
    (∀ q m, st.getPath path = some (.num q) →
      evaluateCompare path .gt (.num m) st = decide (q > m) ∧
      evaluateCompare path .gte (.num m) st = decide (q ≥ m) ∧
      evaluateCompare path .lt (.num m) st = decide (q < m) ∧
      evaluateCompare path .lte (.num m) st = decide (q ≤ m)) := by
  refine ⟨?_, ?_, ?_⟩
  · intro h
    constructor
    · simp [evaluateCompare, valuesEqual, h]
    · simp [evaluateCompare, valuesEqual, h]
  · intro lit hside
    have hfalse : ∀ cmp, compareNumbers (st.getPath path) lit cmp = false := by
      intro cmp
      rcases hget : st.getPath path with _ | v
      · cases lit <;> simp [compareNumbers]
      · rcases v with _ | b | q | s | xs | fs
        · cases lit <;> simp [compareNumbers]
        · cases lit <;> simp [compareNumbers]
        · cases lit with
          | str s => simp [compareNumbers]
          | num m =>
            rcases hside with h | h
            · exact absurd hget (h q)
            · exact absurd rfl (h m)
          | bool b => simp [compareNumbers]
          | null => simp [compareNumbers]
        · cases lit <;> simp [compareNumbers]
        · cases lit <;> simp [compareNumbers]
        · cases lit <;> simp [compareNumbers]
    refine ⟨?_, ?_, ?_, ?_⟩ <;> simp [evaluateCompare, hfalse]
  · intro q m hget
    refine ⟨?_, ?_, ?_, ?_⟩ <;> simp [evaluateCompare, compareNumbers, hget]

/-- State for the C8 witness (`score` = 8). -/
def c8St : WorkflowState := WorkflowState.empty.update "score" (.num 8)

theorem C8_condition_compare_witness :
    evaluateCompare "missing" .eq .null c8St = true ∧
    evaluateCompare "missing" .notEq .null c8St = false ∧
    evaluateCompare "score" .gt (.str "x") c8St = false ∧
    evaluateCompare "score" .gt (.num 5) c8St = true ∧
    evaluateCompare "score" .lte (.num 7) c8St = false := by
  have habs : c8St.getPath "missing" = none := by decide
  have hnum : c8St.getPath "score" = some (.num 8) := by decide
  refine ⟨((C8_condition_compare "missing" c8St).1 habs).1,
    ((C8_condition_compare "missing" c8St).1 habs).2, ?_, ?_, ?_⟩
  · exact (((C8_condition_compare "score" c8St).2.1 (.str "x"))
      (Or.inr (fun m => by simp))).1
  · rw [((C8_condition_compare "score" c8St).2.2 8 5 hnum).1]
    simp only [decide_eq_true_eq]
    norm_num
  · rw [((C8_condition_compare "score" c8St).2.2 8 7 hnum).2.2.2]
    simp only [decide_eq_false_iff_not]
    norm_num

/-! ## C9 — append reducer -/

/-- The per-update contribution of a value under the `append` reducer: arrays
contribute their elements, anything else itself. -/
def appendContrib (v : Json) : List Json :=
  match v with
  | .arr xs => xs
  | v => [v]

theorem append_update_step (st : WorkflowState) (key : String) (v : Json)
    (acc : List Json) (hred : hmGet st.reducers key = some .append)
    (hcur : st.get key = some (.arr acc)) :
    st.update key v = ⟨hmInsert st.fields key (.arr (acc ++ appendContrib v)), st.reducers⟩ := by
  have hfields : hmGet st.fields key = some (.arr acc) := hcur
  unfold WorkflowState.update
  rw [hred]
  show (match hmGet st.fields key with
    | none => _
    | some (.arr _) => _
    | some _ => _) = _
  rw [hfields]
  rcases v with _ | b | q | s | xs | fs <;> rfl

theorem append_fold (key : String) :
    ∀ (vs : List Json) (st : WorkflowState) (acc : List Json),
      hmGet st.reducers key = some .append →
      st.get key = some (.arr acc) →
      (vs.foldl (fun s v => s.update key v) st).get key =
        some (.arr (acc ++ vs.flatMap appendContrib)) := by
  intro vs
  induction vs with
  | nil =>
    intro st acc _ hcur
    simpa using hcur
  | cons v vs ih =>
    intro st acc hred hcur
    rw [List.foldl_cons, append_update_step st key v acc hred hcur,
      ih ⟨hmInsert st.fields key (.arr (acc ++ appendContrib v)), st.reducers⟩
        (acc ++ appendContrib v) hred (hmGet_hmInsert_self _ _ _)]
    simp

/-- C9: for a field with the `append` reducer that starts absent, a non-empty
sequence of updates yields exactly the in-order concatenation of each value's
contribution (array values elementwise, other values as singletons). -/
theorem C9_append_concat (st : WorkflowState) (key : String) (vs : List Json)
    (hred : hmGet st.reducers key = some .append)
    (habs : st.get key = none) (hne : vs ≠ []) :
    (vs.foldl (fun s v => s.update key v) st).get key =
      some (.arr (vs.flatMap appendContrib)) := by
  cases vs with
  | nil => exact absurd rfl hne
  | cons v vs =>
    have hfields : hmGet st.fields key = none := habs
    have hstep : st.update key v =
        ⟨hmInsert st.fields key (.arr (appendContrib v)), st.reducers⟩ := by
      unfold WorkflowState.update
      rw [hred]
      show (match hmGet st.fields key with
        | none => _
        | some (.arr _) => _
        | some _ => _) = _
      rw [hfields]
      rcases v with _ | b | q | s | xs | fs <;> rfl
    rw [List.foldl_cons, hstep,
      append_fold key vs ⟨hmInsert st.fields key (.arr (appendContrib v)), st.reducers⟩
        (appendContrib v) hred (hmGet_hmInsert_self _ _ _)]
    simp

/-- State for the C9 witness: `items` declared with the `append` reducer,
initially absent. -/
def c9St : WorkflowState := ⟨[], [("items", .append)]⟩

theorem C9_append_concat_witness :
    (([Json.str "item1", Json.str "item2", Json.arr [.str "item3", .str "item4"]].foldl
      (fun s v => s.update "items" v) c9St).get "items") =
      some (.arr [.str "item1", .str "item2", .str "item3", .str "item4"]) := by
  have h := C9_append_concat c9St "items"
    [Json.str "item1", Json.str "item2", Json.arr [.str "item3", .str "item4"]]
    (by decide) (by decide) (by simp)
  rw [h]
  rfl

/-! ## C10 — merge reducer with a non-object value -/

/-- C10: under the `merge` reducer, an update with a non-object value performs
no merge, yet materializes `{}` when the field was absent; when the current
value exists and is not an object the update is a no-op. -/
theorem C10_merge_nonobject (st : WorkflowState) (key : String)
    (hred : hmGet st.reducers key = some .merge) :
    (∀ v : Json, (∀ fs, v ≠ .obj fs) → st.get key = none →
      (st.update key v).get key = some (.obj [])) ∧
    (∀ v cur : Json, st.get key = some cur → (∀ fs, cur ≠ .obj fs) →
      st.update key v = st) := by
  constructor
  · intro v hnobj habs
    have hfields : hmGet st.fields key = none := habs
    have hstep : st.update key v = ⟨hmInsert st.fields key (.obj []), st.reducers⟩ := by
      unfold WorkflowState.update
      rw [hred]
      show (match hmGet st.fields key, v with
        | none, .obj _ => _
        | none, _ => _
        | some (.obj _), .obj _ => _
        | some _, _ => _) = _
      rw [hfields]
      rcases v with _ | b | q | s | xs | fs <;> first
        | rfl
        | exact absurd rfl (hnobj fs)
    rw [hstep]
    exact hmGet_hmInsert_self _ _ _
  · intro v cur hcur hnobj
    have hfields : hmGet st.fields key = some cur := hcur
    unfold WorkflowState.update
    rw [hred]
    show (match hmGet st.fields key, v with
      | none, .obj _ => _
      | none, _ => _
      | some (.obj _), .obj _ => _
      | some _, _ => _) = _
    rw [hfields]
    rcases cur with _ | b | q | s | xs | fs
    · rcases v with _ | _ | _ | _ | _ | _ <;> rfl
    · rcases v with _ | _ | _ | _ | _ | _ <;> rfl
    · rcases v with _ | _ | _ | _ | _ | _ <;> rfl
    · rcases v with _ | _ | _ | _ | _ | _ <;> rfl
    · rcases v with _ | _ | _ | _ | _ | _ <;> rfl
    · exact absurd rfl (hnobj fs)

/-- State for the C10 witness: `meta` merge-reduced and absent. -/
def c10StAbsent : WorkflowState := ⟨[], [("meta", .merge)]⟩

/-- State for the C10 witness: `meta` merge-reduced, currently a string. -/
def c10StStr : WorkflowState := ⟨[("meta", .str "not-an-object")], [("meta", .merge)]⟩

theorem C10_merge_nonobject_witness :
    (c10StAbsent.update "meta" (.str "v")).get "meta" = some (.obj []) ∧
    c10StStr.update "meta" (.str "v") = c10StStr := by
  constructor
  · exact (C10_merge_nonobject c10StAbsent "meta" (by decide)).1 (.str "v")
      (fun fs => by simp) (by decide)
  · exact (C10_merge_nonobject c10StStr "meta" (by decide)).2 (.str "v")
      (.str "not-an-object") (by decide) (fun fs => by simp)

/-! ## C4 — text-first rule of the LLM turn loop -/

/-- C4: whenever a model response contains a non-empty `Text` part, the turn
loop returns the first such part's string at once — one model call, no tool
execution, no history growth (the loop ends on that very turn, for any
remaining fuel) — even when `ToolCall` parts are present; in particular a
model answering with non-empty text on the first call yields that text
unchanged. -/
theorem C4_text_first :
    (∀ parts : List Adk.Part, Adk.LLMAgent.findNonEmptyText parts =
      (parts.filterMap fun p => match p with
        | .text t => if t = "" then none else some t
        | _ => none).head?) ∧
    (∀ (a : Adk.LLMAgent) (fuel : ℕ) (history : List Adk.Content)
        (trace : List Adk.RunEvent) (response : Adk.Content) (text : String),
      a.model history = .ok response →
      Adk.LLMAgent.findNonEmptyText response.parts = some text →
      Adk.LLMAgent.runAux a (fuel + 1) history trace =
        (.ok text, trace ++ [.modelCall])) ∧
    (∀ (a : Adk.LLMAgent) (input : String) (response : Adk.Content) (text : String),
      a.model (a.initHistory input) = .ok response →
      Adk.LLMAgent.findNonEmptyText response.parts = some text →
      a.run input = (.ok text, [.modelCall])) := by
  have h0 : ∀ parts : List Adk.Part, Adk.LLMAgent.findNonEmptyText parts =
      (parts.filterMap fun p => match p with
        | .text t => if t = "" then none else some t
        | _ => none).head? := by
    intro parts
    induction parts with
    | nil => rfl
    | cons p rest ih =>
      cases p with
      | text t =>
        by_cases ht : t = "" <;> simp [Adk.LLMAgent.findNonEmptyText, ht, ih]
      | thinking t => simpa [Adk.LLMAgent.findNonEmptyText] using ih
      | functionCall n args sig => simpa [Adk.LLMAgent.findNonEmptyText] using ih
      | functionResponse n r => simpa [Adk.LLMAgent.findNonEmptyText] using ih
  have h1 : ∀ (a : Adk.LLMAgent) (fuel : ℕ) (history : List Adk.Content)
      (trace : List Adk.RunEvent) (response : Adk.Content) (text : String),
      a.model history = .ok response →
      Adk.LLMAgent.findNonEmptyText response.parts = some text →
      Adk.LLMAgent.runAux a (fuel + 1) history trace =
        (.ok text, trace ++ [.modelCall]) := by
    intro a fuel history trace response text hmodel htext
    simp [Adk.LLMAgent.runAux, hmodel, htext]
  refine ⟨h0, h1, ?_⟩
  intro a input response text hmodel htext
  have := h1 a 9 (a.initHistory input) [] response text hmodel htext
  simpa [Adk.LLMAgent.run] using this

/-- Model for the C4 witness: first call returns empty text, non-empty text
and a tool call together. -/
def c4Model : List Adk.Content → Except String Adk.Content :=
  fun _ => .ok ⟨"model", [.text "", .text "hi", .functionCall "f" .null none]⟩

/-- Agent for the C4 witness. -/
def c4Agent : Adk.LLMAgent := ⟨"t", "d", "inst", c4Model, []⟩

theorem C4_text_first_witness : c4Agent.run "q" = (.ok "hi", [.modelCall]) :=
  C4_text_first.2.2 c4Agent "q" ⟨"model", [.text "", .text "hi", .functionCall "f" .null none]⟩
    "hi" rfl (by decide)

/-! ## C5 — turn bound of the LLM turn loop -/

/-- Number of model calls recorded in a run trace. -/
def modelCallCount (tr : List Adk.RunEvent) : ℕ :=
  (tr.filter (· = Adk.RunEvent.modelCall)).length

theorem modelCallCount_append (a b : List Adk.RunEvent) :
    modelCallCount (a ++ b) = modelCallCount a + modelCallCount b := by
  simp [modelCallCount, List.filter_append]

theorem execCalls_no_modelCall (a : Adk.LLMAgent) :
    ∀ calls, modelCallCount (Adk.LLMAgent.execCalls a calls).2 = 0 := by
  intro calls
  induction calls with
  | nil => rfl
  | cons c rest ih =>
    obtain ⟨name, args⟩ := c
    simp only [Adk.LLMAgent.execCalls, modelCallCount_append, ih]
    rcases hlook : a.getTool name with _ | t
    · simp [hlook, modelCallCount]
    · rcases hrun : t args with e | r <;> simp [hlook, hrun, modelCallCount]

theorem modelCallCount_one : modelCallCount [Adk.RunEvent.modelCall] = 1 := rfl

theorem runAux_modelCalls_le (a : Adk.LLMAgent) :
    ∀ (fuel : ℕ) (history : List Adk.Content) (trace : List Adk.RunEvent),
      modelCallCount (Adk.LLMAgent.runAux a fuel history trace).2 ≤
        modelCallCount trace + fuel := by
  intro fuel
  induction fuel with
  | zero => intro history trace; simp [Adk.LLMAgent.runAux]
  | succ fuel ih =>
    intro history trace
    rcases hmodel : a.model history with e | response
    · simp only [Adk.LLMAgent.runAux, hmodel]
      rw [modelCallCount_append, modelCallCount_one]
      omega
    · rcases htext : Adk.LLMAgent.findNonEmptyText response.parts with _ | text
      · rcases hcalls : Adk.LLMAgent.functionCalls response.parts with _ | ⟨c, rest⟩
        · simp only [Adk.LLMAgent.runAux, hmodel, htext, hcalls, List.isEmpty_nil,
            if_true]
          rw [modelCallCount_append, modelCallCount_one]
          omega
        · have hrec := ih (history ++ [response,
            ⟨"user", (Adk.LLMAgent.execCalls a (c :: rest)).1⟩])
            ((trace ++ [.modelCall]) ++ (Adk.LLMAgent.execCalls a (c :: rest)).2)
          simp only [Adk.LLMAgent.runAux, hmodel, htext, hcalls, List.isEmpty_cons,
            Bool.false_eq_true, if_false]
          refine le_trans hrec ?_
          rw [modelCallCount_append, modelCallCount_append, modelCallCount_one,
            execCalls_no_modelCall]
          omega
      · simp only [Adk.LLMAgent.runAux, hmodel, htext]
        rw [modelCallCount_append, modelCallCount_one]
        omega

theorem runAux_all_toolcalls (a : Adk.LLMAgent)
    (H : ∀ h : List Adk.Content, ∃ r, a.model h = .ok r ∧
      Adk.LLMAgent.findNonEmptyText r.parts = none ∧
      Adk.LLMAgent.functionCalls r.parts ≠ []) :
    ∀ (fuel : ℕ) (history : List Adk.Content) (trace : List Adk.RunEvent),
      (Adk.LLMAgent.runAux a fuel history trace).1 = .error "Max turns reached" ∧
      modelCallCount (Adk.LLMAgent.runAux a fuel history trace).2 =
        modelCallCount trace + fuel := by
  intro fuel
  induction fuel with
  | zero => intro history trace; simp [Adk.LLMAgent.runAux]
  | succ fuel ih =>
    intro history trace
    obtain ⟨r, hmodel, htext, hcalls⟩ := H history
    rcases hc : Adk.LLMAgent.functionCalls r.parts with _ | ⟨c, rest⟩
    · exact absurd hc hcalls
    · have hrec := ih (history ++ [r, ⟨"user", (Adk.LLMAgent.execCalls a (c :: rest)).1⟩])
        ((trace ++ [.modelCall]) ++ (Adk.LLMAgent.execCalls a (c :: rest)).2)
      constructor
      · simpa [Adk.LLMAgent.runAux, hmodel, htext, hc] using hrec.1
      · simp only [Adk.LLMAgent.runAux, hmodel, htext, hc, List.isEmpty_cons,
          Bool.false_eq_true, if_false]
        rw [hrec.2, modelCallCount_append, modelCallCount_append, modelCallCount_one,
          execCalls_no_modelCall]
        omega

/-- C5: `run` never makes more than 10 model calls; and when every response
carries tool calls and never a non-empty text part, it fails with the
max-turns error after exactly 10 model calls. -/
theorem C5_turn_bound :
    (∀ (a : Adk.LLMAgent) (input : String),
      modelCallCount (a.run input).2 ≤ 10) ∧
    (∀ (a : Adk.LLMAgent) (input : String),
      (∀ h : List Adk.Content, ∃ r, a.model h = .ok r ∧
        Adk.LLMAgent.findNonEmptyText r.parts = none ∧
        Adk.LLMAgent.functionCalls r.parts ≠ []) →
      (a.run input).1 = .error "Max turns reached" ∧
      modelCallCount (a.run input).2 = 10) := by
  constructor
  · intro a input
    simpa [Adk.LLMAgent.run, modelCallCount] using
      runAux_modelCalls_le a 10 (a.initHistory input) []
  · intro a input H
    have h := runAux_all_toolcalls a H 10 (a.initHistory input) []
    constructor
    · exact h.1
    · simpa [Adk.LLMAgent.run, modelCallCount] using h.2

/-- Model for the C5 witness: always a lone tool call. -/
def c5Model : List Adk.Content → Except String Adk.Content :=
  fun _ => .ok ⟨"model", [.functionCall "f" .null none]⟩

/-- Agent for the C5 witness. -/
def c5Agent : Adk.LLMAgent := ⟨"t", "d", "inst", c5Model, [("f", fun _ => .ok .null)]⟩

theorem C5_turn_bound_witness :
    modelCallCount (c5Agent.run "q").2 ≤ 10 ∧
    (c5Agent.run "q").1 = .error "Max turns reached" ∧
    modelCallCount (c5Agent.run "q").2 = 10 := by
  refine ⟨C5_turn_bound.1 c5Agent "q", ?_⟩
  exact C5_turn_bound.2 c5Agent "q"
    (fun h => ⟨⟨"model", [.functionCall "f" .null none]⟩, rfl, rfl, by decide⟩)

/-! ## C6 — ReAct classification is positional, not kind-precedence -/

/-- Per-part classification: what a single part contributes to
`parse_response`, `none` when the loop skips it. -/
def classifyPart (p : Adk.Part) : Option Adk.ReActStep :=
  match p with
  | .thinking t => some (.thought t)
  | .functionCall name args _ => some (.action name args)
  | .text t =>
    let tt := strTrim t
    if strStartsWith (strToLower tt) "final answer:" then
      some (.finalAnswer (strTrim ((((Adk.stripPre "Final Answer:" tt).orElse
        (fun _ => Adk.stripPre "final answer:" tt)).orElse
        (fun _ => Adk.stripPre "FINAL ANSWER:" tt)).getD tt)))
    else if tt ≠ "" then some (.thought tt)
    else none
  | .functionResponse _ _ => none

/-- C6 (amended): `parse_response` classifies by the FIRST significant part in
sequence order — `Thinking` → Thought, `ToolCall` → Action, a `Text` part with
the (case-insensitive, trimmed) `final answer:` sentinel → FinalAnswer, any
other non-empty `Text` → Thought; empty `Text` and tool-response parts are
skipped, and an empty Thought results when nothing matches.  Part kind gives
no precedence: a `ToolCall` part ahead of a `Thinking` part yields an
Action. -/
theorem C6_positional_classification :
    (∀ r : Adk.Content, Adk.parseResponse r =
      ((r.parts.filterMap classifyPart).head?).getD (.thought "")) ∧
    (∀ (role name : String) (args : Json) (sig : Option String)
        (rest : List Adk.Part),
      Adk.parseResponse ⟨role, .functionCall name args sig :: rest⟩ =
        .action name args) := by
  have h : ∀ parts : List Adk.Part, Adk.parseResponseParts parts =
      ((parts.filterMap classifyPart).head?).getD (.thought "") := by
    intro parts
    induction parts with
    | nil => rfl
    | cons p rest ih =>
      cases p with
      | thinking t => simp [Adk.parseResponseParts, classifyPart]
      | functionCall name args sig => simp [Adk.parseResponseParts, classifyPart]
      | text t =>
        by_cases h1 : strStartsWith (strToLower (strTrim t)) "final answer:" = true
        · simp [Adk.parseResponseParts, classifyPart, h1]
        · by_cases h2 : strTrim t = ""
          · have hcond : strStartsWith (strToLower "") "final answer:" = false := by
              decide
            simpa [Adk.parseResponseParts, classifyPart, h1, h2, hcond] using ih
          · simp [Adk.parseResponseParts, classifyPart, h1, h2]
      | functionResponse name rsp =>
        simpa [Adk.parseResponseParts, classifyPart] using ih
  exact ⟨fun r => h r.parts, fun role name args sig rest => rfl⟩

/-- Response whose `ToolCall` part precedes its `Thinking` part. -/
def c6Resp : Adk.Content := ⟨"model", [.functionCall "f" .null none, .thinking "t"]⟩

theorem C6_counterexample :
    Adk.parseResponse c6Resp = .action "f" .null ∧
    Adk.parseResponse c6Resp ≠ .thought "t" := by
  constructor
  · rfl
  · decide

/-! ## C3 — streaming turn loop vs. plain turn loop -/

theorem string_append_empty (a : String) : a ++ "" = a := by
  apply String.ext
  rw [string_data_append]
  exact List.append_nil _

theorem findNonEmptyText_ne_empty :
    ∀ (parts : List Adk.Part) (t : String),
      Adk.LLMAgent.findNonEmptyText parts = some t → t ≠ "" := by
  intro parts
  induction parts with
  | nil => intro t h; cases h
  | cons p rest ih =>
    intro t h
    cases p with
    | text s =>
      by_cases hs : s = ""
      · rw [Adk.LLMAgent.findNonEmptyText, if_neg (by simpa using hs)] at h
        exact ih t h
      · rw [Adk.LLMAgent.findNonEmptyText, if_pos (by simpa using hs)] at h
        cases h
        exact hs
    | thinking s => exact ih t h
    | functionCall n args sig => exact ih t h
    | functionResponse n r => exact ih t h

theorem string_append_assoc (a b c : String) : a ++ b ++ c = a ++ (b ++ c) := by
  apply String.ext
  simp [string_data_append]

theorem concatTexts_go (parts : List Adk.Part) :
    ∀ acc : String,
      parts.foldl (fun acc p => match p with | .text t => acc ++ t | _ => acc) acc =
        acc ++ Adk.LLMAgent.concatTexts parts := by
  induction parts with
  | nil => intro acc; exact (string_append_empty acc).symm
  | cons p rest ih =>
    intro acc
    cases p with
    | text t =>
      have h1 : Adk.LLMAgent.concatTexts (Adk.Part.text t :: rest) =
          t ++ Adk.LLMAgent.concatTexts rest := ih t
      show rest.foldl _ (acc ++ t) = acc ++ Adk.LLMAgent.concatTexts (.text t :: rest)
      rw [ih (acc ++ t), h1, string_append_assoc]
    | thinking t => exact ih acc
    | functionCall n args sig => exact ih acc
    | functionResponse n r => exact ih acc

theorem concatTexts_empty_of_no_text :
    ∀ parts : List Adk.Part, Adk.LLMAgent.findNonEmptyText parts = none →
      Adk.LLMAgent.concatTexts parts = "" := by
  intro parts
  induction parts with
  | nil => intro _; rfl
  | cons p rest ih =>
    intro h
    cases p with
    | text s =>
      by_cases hs : s = ""
      · rw [Adk.LLMAgent.findNonEmptyText, if_neg (by simpa using hs)] at h
        show (Adk.Part.text s :: rest).foldl _ "" = ""
        rw [List.foldl_cons]
        show rest.foldl _ ("" ++ s) = ""
        rw [concatTexts_go, ih h, hs, string_append_empty, string_append_empty]
      · rw [Adk.LLMAgent.findNonEmptyText, if_pos (by simpa using hs)] at h
        cases h
    | thinking s =>
      show rest.foldl _ "" = ""
      exact ih h
    | functionCall n args sig =>
      show rest.foldl _ "" = ""
      exact ih h
    | functionResponse n r =>
      show rest.foldl _ "" = ""
      exact ih h

theorem execCalls_fst_eq (a : Adk.LLMAgent) :
    ∀ calls, (Adk.LLMAgent.execCalls a calls).1 =
      (Adk.LLMAgent.execCallsStream a calls).1 := by
  intro calls
  induction calls with
  | nil => rfl
  | cons c rest ih =>
    obtain ⟨name, args⟩ := c
    simp only [Adk.LLMAgent.execCalls, Adk.LLMAgent.execCallsStream]
    rcases hlook : a.getTool name with _ | t
    · simp [hlook, ih]
    · rcases hrun : t args with e | r <;> simp [hlook, hrun, ih]

/-- C3 (amended): the streaming loop returns the same `Result` as the plain
loop provided no model response combines a non-empty `Text` part with
`ToolCall` parts and, when text is present, its concatenation equals the first
non-empty text part (e.g. a single text part).  Without that proviso the two
differ: the plain loop returns the text of a mixed response at once, the
streaming loop demotes it to a `Thought` event, executes the tools and
continues (see the counterexample). -/
theorem C3_stream_refinement (a : Adk.LLMAgent) (input : String)
    (H : ∀ (h : List Adk.Content) (r : Adk.Content) (t : String),
      a.model h = .ok r → Adk.LLMAgent.findNonEmptyText r.parts = some t →
      Adk.LLMAgent.functionCalls r.parts = [] ∧
        Adk.LLMAgent.concatTexts r.parts = t) :
    (a.run input).1 = (a.runStream input).1 := by
  have main : ∀ (fuel : ℕ) (history : List Adk.Content) (trace : List Adk.RunEvent)
      (evs : List Adk.AgentEvent),
      (Adk.LLMAgent.runAux a fuel history trace).1 =
        (Adk.LLMAgent.runStreamAux a fuel history evs).1 := by
    intro fuel
    induction fuel with
    | zero => intro history trace evs; rfl
    | succ fuel ih =>
      intro history trace evs
      rcases hmodel : a.model history with e | r
      · simp [Adk.LLMAgent.runAux, Adk.LLMAgent.runStreamAux, hmodel]
      · rcases htext : Adk.LLMAgent.findNonEmptyText r.parts with _ | t
        · rcases hcalls : Adk.LLMAgent.functionCalls r.parts with _ | ⟨c, rest⟩
          · have hconcat := concatTexts_empty_of_no_text r.parts htext
            simp [Adk.LLMAgent.runAux, Adk.LLMAgent.runStreamAux, hmodel, htext,
              hcalls, hconcat]
          · have hfst := execCalls_fst_eq a (c :: rest)
            simp only [Adk.LLMAgent.runAux, Adk.LLMAgent.runStreamAux, hmodel, htext,
              hcalls, List.isEmpty_cons, Bool.false_eq_true, if_false]
            rw [← hfst]
            exact ih _ _ _
        · obtain ⟨hcalls, hconcat⟩ := H history r t hmodel htext
          have hne : t ≠ "" := findNonEmptyText_ne_empty r.parts t htext
          simp [Adk.LLMAgent.runAux, Adk.LLMAgent.runStreamAux, hmodel, htext,
            hcalls, hconcat, hne]
  exact main 10 (a.initHistory input) [] []

/-- Model for the C3 counterexample: first call mixes non-empty text with a
tool call, second call is pure text. -/
def c3Model : List Adk.Content → Except String Adk.Content := fun h =>
  if h.length ≤ 2 then .ok ⟨"model", [.text "hi", .functionCall "f" .null none]⟩
  else .ok ⟨"model", [.text "bye"]⟩

/-- Agent for the C3 counterexample. -/
def c3Agent : Adk.LLMAgent := ⟨"t", "d", "inst", c3Model, [("f", fun _ => .ok .null)]⟩

theorem C3_counterexample :
    (c3Agent.run "q").1 = .ok "hi" ∧
    (c3Agent.runStream "q").1 = .ok "bye" ∧
    ("hi" : String) ≠ "bye" := by
  refine ⟨rfl, rfl, by decide⟩

/-- Model for the C3 witness: tool-call-only response, then pure text. -/
def c3wModel : List Adk.Content → Except String Adk.Content := fun h =>
  if h.length ≤ 2 then .ok ⟨"model", [.functionCall "f" .null none]⟩
  else .ok ⟨"model", [.text "done"]⟩

/-- Agent for the C3 witness. -/
def c3wAgent : Adk.LLMAgent := ⟨"t", "d", "inst", c3wModel, [("f", fun _ => .ok .null)]⟩

theorem C3_stream_refinement_witness :
    (c3wAgent.run "q").1 = (c3wAgent.runStream "q").1 := by
  apply C3_stream_refinement
  intro h r t hm ht
  have hsplit : r = ⟨"model", [.functionCall "f" .null none]⟩ ∨
      r = ⟨"model", [.text "done"]⟩ := by
    by_cases hl : h.length ≤ 2
    · left
      have : c3wModel h = .ok ⟨"model", [.functionCall "f" .null none]⟩ := by
        simp [c3wModel, hl]
      rw [show c3wAgent.model h = c3wModel h from rfl, this] at hm
      cases hm
      rfl
    · right
      have : c3wModel h = .ok ⟨"model", [.text "done"]⟩ := by
        simp [c3wModel, hl]
      rw [show c3wAgent.model h = c3wModel h from rfl, this] at hm
      cases hm
      rfl
  rcases hsplit with hr | hr
  · subst hr
    cases ht
  · subst hr
    have ht2 : "done" = t := by
      simpa [Adk.LLMAgent.findNonEmptyText] using ht
    subst ht2
    exact ⟨rfl, rfl⟩

/-! ## C2 — terminal projection -/

/-- Spec-side separator concatenation: the values joined by the literal
separator of the claim. -/
def sepConcat : List String → String
  | [] => ""
  | [t] => t
  | t :: u :: rest => t ++ "\n\n---\n\n" ++ sepConcat (u :: rest)

/-- Spec-side terminal ids: a node is terminal iff its id appears in no
node's `depends_on` list. -/
def terminalIdsSpec (g : GraphAgent) : List String :=
  (g.nodesMapValues.filter (fun n =>
    g.nodesMapValues.all (fun m => !m.dependsOn.contains n.id))).map (·.id)

/-- Spec-side terminal projection: the `output.<id>` entries of terminal
nodes, in ascending (byte-lexicographic) key order of the state's JSON
object, rendered and joined; a single value is returned bare. -/
def formatResponseSpec (g : GraphAgent) (st : WorkflowState) : String :=
  let outs : List String :=
    match st.toJson with
    | .obj fields => fields.filterMap (fun p =>
        if (terminalIdsSpec g).any (fun i => p.1 = "output." ++ i) then
          some (valueToText p.2)
        else none)
    | _ => []
  match outs with
  | [t] => t
  | ts => sepConcat ts

theorem combine_fold (ts : List String) :
    ∀ acc : String,
      (ts.foldl (fun (a : String × Bool) t =>
        (a.1 ++ (if a.2 then "" else "\n\n---\n\n") ++ t, false)) (acc, false)).1 =
      (match ts with
       | [] => acc
       | _ :: _ => acc ++ "\n\n---\n\n" ++ sepConcat ts) := by
  induction ts with
  | nil => intro acc; rfl
  | cons t ts ih =>
    intro acc
    show (ts.foldl _ (acc ++ "\n\n---\n\n" ++ t, false)).1 = _
    rw [ih (acc ++ "\n\n---\n\n" ++ t)]
    cases ts with
    | nil => rfl
    | cons u us =>
      show acc ++ "\n\n---\n\n" ++ t ++ "\n\n---\n\n" ++ sepConcat (u :: us) =
        acc ++ "\n\n---\n\n" ++ (t ++ "\n\n---\n\n" ++ sepConcat (u :: us))
      apply String.ext
      simp [string_data_append]

theorem combineWithSep_eq_sepConcat :
    ∀ ts : List String, GraphAgent.combineWithSep ts = sepConcat ts := by
  intro ts
  cases ts with
  | nil => rfl
  | cons t rest =>
    show (rest.foldl _ ("" ++ "" ++ t, false)).1 = sepConcat (t :: rest)
    have h0 : ("" ++ "" ++ t : String) = t := by
      apply String.ext
      simp [string_data_append]
    rw [h0, combine_fold rest t]
    cases rest with
    | nil => rfl
    | cons u us => rfl

theorem stripOutputKey_some_iff (k i : String) :
    GraphAgent.stripOutputKey k = some i ↔ k = "output." ++ i := by
  constructor
  · intro h
    unfold GraphAgent.stripOutputKey at h
    split at h
    case isTrue hpre =>
      obtain ⟨t, ht⟩ := List.isPrefixOf_iff_prefix.mp hpre
      have ht' : "output.".data ++ t = k.data := ht
      have hlen : ("output.".data).length = 7 := rfl
      have hdrop : ∀ u : List Char, List.drop 7 ("output.".data ++ u) = u :=
        fun u => hlen ▸ List.drop_left "output.".data u
      injection h with h'
      apply String.ext
      rw [string_data_append]
      show k.data = "output.".data ++ i.data
      rw [← h']
      show k.data = "output.".data ++ k.data.drop 7
      rw [← ht', hdrop]
    case isFalse hpre => cases h
  · intro h
    subst h
    have hlen : ("output.".data).length = 7 := rfl
    have hdrop : ∀ u : List Char, List.drop 7 ("output.".data ++ u) = u :=
      fun u => hlen ▸ List.drop_left "output.".data u
    unfold GraphAgent.stripOutputKey
    rw [if_pos]
    · show some (String.mk ((("output." ++ i).data).drop 7)) = some i
      rw [show ("output." ++ i).data = "output.".data ++ i.data from rfl, hdrop]
    · exact List.isPrefixOf_iff_prefix.mpr (List.prefix_append _ _)

theorem stripOutputKey_none (k : String) (h : GraphAgent.stripOutputKey k = none) :
    ∀ i, k ≠ "output." ++ i := by
  intro i hk
  rw [(stripOutputKey_some_iff k i).mpr hk] at h
  cases h

theorem bool_eq_of_iff {b c : Bool} (h : b = true ↔ c = true) : b = c := by
  cases b <;> cases c <;> simp_all

theorem contains_flatMap_deps (values : List CompiledNode) (x : String) :
    (!(values.flatMap (·.dependsOn)).contains x) =
      values.all (fun m => !m.dependsOn.contains x) := by
  apply bool_eq_of_iff
  simp [List.mem_flatMap]

theorem strip_pred_eq (terms : List String) (k : String) :
    (match GraphAgent.stripOutputKey k with
     | some nodeId => terms.contains nodeId
     | none => false) = terms.any (fun i => k = "output." ++ i) := by
  rcases hstrip : GraphAgent.stripOutputKey k with _ | nodeId
  · symm
    rw [List.any_eq_false]
    intro i hi
    simp only [decide_eq_true_eq]
    exact stripOutputKey_none k hstrip i
  · have hk := (stripOutputKey_some_iff k nodeId).mp hstrip
    subst hk
    apply bool_eq_of_iff
    rw [List.any_eq_true]
    constructor
    · intro h
      exact ⟨nodeId, List.elem_iff.mp h, by simp⟩
    · rintro ⟨i, hi, hEq⟩
      simp only [decide_eq_true_eq] at hEq
      have hni : nodeId = i := string_append_left_cancel hEq
      subst hni
      exact List.elem_iff.mpr hi

theorem filter_strip_map (terms : List String) :
    ∀ fields : List (String × Json),
      fields.filterMap (fun p =>
        if terms.any (fun i => p.1 = "output." ++ i) then some (valueToText p.2)
        else none) =
      (fields.filter (fun p =>
        match GraphAgent.stripOutputKey p.1 with
        | some nodeId => terms.contains nodeId
        | none => false)).map (fun p => valueToText p.2) := by
  intro fields
  induction fields with
  | nil => rfl
  | cons p rest ih =>
    rw [List.filterMap_cons, List.filter_cons, strip_pred_eq terms p.1]
    cases hany : terms.any (fun i => p.1 = "output." ++ i) with
    | true => simpa using ih
    | false => simpa using ih

theorem match_single_eq (xs : List (String × Json)) :
    (match xs with
     | [(_, v)] => valueToText v
     | outs => GraphAgent.combineWithSep (outs.map (fun p => valueToText p.2))) =
    (match xs.map (fun p => valueToText p.2) with
     | [t] => t
     | ts => sepConcat ts) := by
  match xs with
  | [] => rfl
  | [(k, v)] => rfl
  | (k, v) :: q :: rest => exact combineWithSep_eq_sepConcat _

/-- C2 (amended): `format_response` renders, for each terminal node (a node
whose id is in no node's `depends_on` list) with an `output.<id>` state entry,
that entry's JSON-to-text form, and joins them with `"\n\n---\n\n"` in
ascending byte-lexicographic order of the state keys — the iteration order of
the state's JSON object map — NOT in node declaration order; and when exactly
one such entry exists its rendering is returned bare. -/
theorem C2_terminal_projection :
    (∀ (g : GraphAgent) (st : WorkflowState),
      g.formatResponse st = formatResponseSpec g st) ∧
    (∀ (g : GraphAgent) (i : String),
      i ∈ terminalIdsSpec g ↔
        (∃ n ∈ g.nodesMapValues, n.id = i) ∧
        ∀ m ∈ g.nodesMapValues, i ∉ m.dependsOn) := by
  constructor
  · intro g st
    have hterm : ((g.nodesMapValues.filter (fun n =>
        !(g.nodesMapValues.flatMap (·.dependsOn)).contains n.id)).map (·.id)) =
        terminalIdsSpec g := by
      unfold terminalIdsSpec
      congr 1
      apply List.filter_congr
      intro n _
      exact contains_flatMap_deps g.nodesMapValues n.id
    simp only [GraphAgent.formatResponse, formatResponseSpec]
    rw [hterm]
    cases hjson : st.toJson with
    | obj fields =>
      show (match fields.filter (fun p =>
          match GraphAgent.stripOutputKey p.1 with
          | some nodeId => (terminalIdsSpec g).contains nodeId
          | none => false) with
        | [(_, v)] => valueToText v
        | outs => GraphAgent.combineWithSep (outs.map (fun p => valueToText p.2))) =
        (match fields.filterMap (fun p =>
          if (terminalIdsSpec g).any (fun i => p.1 = "output." ++ i) then
            some (valueToText p.2)
          else none) with
        | [t] => t
        | ts => sepConcat ts)
      rw [filter_strip_map (terminalIdsSpec g) fields]
      exact match_single_eq _
    | null => rfl
    | bool b => rfl
    | num q => rfl
    | str s => rfl
    | arr xs => rfl
  · intro g i
    unfold terminalIdsSpec
    simp only [List.mem_map, List.mem_filter, List.all_eq_true, Bool.not_eq_true']
    constructor
    · rintro ⟨n, ⟨hn, hall⟩, rfl⟩
      refine ⟨⟨n, hn, rfl⟩, fun m hm hmem => ?_⟩
      have h2 : m.dependsOn.contains n.id = true := List.elem_iff.mpr hmem
      have h3 := hall m hm
      exact absurd (h3.symm.trans h2) (by decide)
    · rintro ⟨⟨n, hn, rfl⟩, hall⟩
      refine ⟨n, ⟨hn, fun m hm => ?_⟩, rfl⟩
      rcases hc : m.dependsOn.contains n.id with _ | _
      · rfl
      · exact absurd (List.elem_iff.mp hc) (hall m hm)

/-- Nodes for the C2 counterexample, declared in the order `b`, `a`. -/
def c2NodeB : CompiledNode := ⟨"b", fun _ => .ok "rb", [], none, [], .all⟩

/-- Second node of the C2 counterexample. -/
def c2NodeA : CompiledNode := ⟨"a", fun _ => .ok "ra", [], none, [], .all⟩

/-- Two-terminal graph declared in the order `b`, `a`. -/
def c2Graph : GraphAgent := ⟨"p", "par", [c2NodeB, c2NodeA]⟩

theorem C2_counterexample :
    c2Graph.nodeOrder = ["b", "a"] ∧
    c2Graph.run "x" = .ok "ra\n\n---\n\nrb" ∧
    ("ra\n\n---\n\nrb" : String) ≠ "rb\n\n---\n\nra" := by
  refine ⟨rfl, ?_, by decide⟩
  show Except.ok (c2Graph.formatResponse (c2Graph.runFull "x").1) =
    .ok "ra\n\n---\n\nrb"
  exact congrArg Except.ok (by decide)

/-! ## C1 — per-node outcome of the scheduler -/

theorem outKey_injective {i j : String} (h : "output." ++ i = "output." ++ j) : i = j :=
  string_append_left_cancel h

theorem errKey_injective {i j : String} (h : i ++ ".error" = j ++ ".error") : i = j :=
  string_append_right_cancel h

theorem outKey_ne_input (i : String) : "output." ++ i ≠ "input" := by
  intro h
  have hlen := congrArg String.length h
  rw [string_length_append] at hlen
  have h7 : ("output." : String).length = 7 := rfl
  have h5 : ("input" : String).length = 5 := rfl
  rw [h7, h5] at hlen
  omega

theorem errKey_ne_input (i : String) : i ++ ".error" ≠ "input" := by
  intro h
  have hlen := congrArg String.length h
  rw [string_length_append] at hlen
  have h6 : (".error" : String).length = 6 := rfl
  have h5 : ("input" : String).length = 5 := rfl
  rw [h6, h5] at hlen
  omega

theorem hmGet_entry {α : Type} (m : List (String × α)) (k : String) (v : α)
    (h : hmGet m k = some v) : (k, v) ∈ m := by
  unfold hmGet at h
  rcases hfind : m.find? (fun p => p.1 = k) with _ | p
  · rw [hfind] at h
    cases h
  · rw [hfind] at h
    have hmem := List.mem_of_find?_eq_some hfind
    have hpred := List.find?_some hfind
    simp only [decide_eq_true_eq] at hpred
    simp only [Option.map_some'] at h
    cases h
    have : p = (p.1, p.2) := rfl
    rw [this, hpred] at hmem
    exact hmem

theorem foldl_hmInsert_entries (S : CompiledNode → Prop) :
    ∀ (l : List CompiledNode) (acc : List (String × CompiledNode)),
      (∀ p ∈ acc, S p.2 ∧ p.2.id = p.1) → (∀ n ∈ l, S n) →
      ∀ p ∈ l.foldl (fun m n => hmInsert m n.id n) acc, S p.2 ∧ p.2.id = p.1 := by
  intro l
  induction l with
  | nil => intro acc hacc _ p hp; exact hacc p hp
  | cons n rest ih =>
    intro acc hacc hl p hp
    refine ih (hmInsert acc n.id n) ?_ (fun m hm => hl m (by simp [hm])) p hp
    intro q hq
    rcases mem_hmInsert acc n.id n q hq with h | h
    · exact hacc q h
    · rw [h]
      exact ⟨hl n (by simp), rfl⟩

theorem nodesMap_entry (g : GraphAgent) :
    ∀ p ∈ g.nodesMap, p.2 ∈ g.nodes ∧ p.2.id = p.1 := by
  intro p hp
  exact foldl_hmInsert_entries (· ∈ g.nodes) g.nodes [] (by simp) (fun n hn => hn) p hp

theorem lookupNode_sound (g : GraphAgent) (id : String) (node : CompiledNode)
    (h : g.lookupNode id = some node) : node ∈ g.nodes ∧ node.id = id := by
  have hmem := hmGet_entry _ _ _ h
  have := nodesMap_entry g (id, node) hmem
  exact ⟨this.1, this.2⟩

theorem foldl_hmInsert_key (k : String) :
    ∀ (l : List CompiledNode) (acc : List (String × CompiledNode)),
      ((hmGet acc k).isSome ∨ ∃ n ∈ l, n.id = k) →
      (hmGet (l.foldl (fun m n => hmInsert m n.id n) acc) k).isSome := by
  intro l
  induction l with
  | nil =>
    intro acc h
    rcases h with h | ⟨n, hn, _⟩
    · exact h
    · cases hn
  | cons n rest ih =>
    intro acc h
    apply ih (hmInsert acc n.id n)
    by_cases hid : n.id = k
    · left
      rw [← hid, hmGet_hmInsert_self]
      rfl
    · rcases h with h | ⟨m, hm, hmk⟩
      · left
        rw [hmGet_hmInsert_ne acc n.id k n (fun hk => hid hk.symm)]
        exact h
      · rcases List.mem_cons.mp hm with h' | h'
        · exact absurd (h' ▸ hmk) hid
        · right
          exact ⟨m, h', hmk⟩

theorem lookupNode_isSome (g : GraphAgent) (id : String) (h : id ∈ g.nodeOrder) :
    (g.lookupNode id).isSome := by
  unfold GraphAgent.lookupNode GraphAgent.nodesMap
  apply foldl_hmInsert_key
  right
  unfold GraphAgent.nodeOrder at h
  rcases List.mem_map.mp h with ⟨n, hn, hid⟩
  exact ⟨n, hn, hid⟩

/-- Exactly one of `output.<id>` / `<id>.error` is set, the error as a
string. -/
def exactlyOneOutcome (st : WorkflowState) (id : String) : Prop :=
  ((∃ v, st.get ("output." ++ id) = some v) ∧ st.get (id ++ ".error") = none) ∨
  ((∃ s, st.get (id ++ ".error") = some (.str s)) ∧ st.get ("output." ++ id) = none)

/-- Key discipline of a graph: unique node ids, output mappings never target a
reserved `output.<id>`/`<id>.error` key, and those reserved keys never collide
across nodes. -/
def wellKeyed (g : GraphAgent) : Prop :=
  (g.nodes.map (·.id)).Nodup ∧
  (∀ n ∈ g.nodes, ∀ p ∈ n.outputs, ∀ m ∈ g.nodes,
    p.1 ≠ "output." ++ m.id ∧ p.1 ≠ m.id ++ ".error") ∧
  (∀ n ∈ g.nodes, ∀ m ∈ g.nodes, "output." ++ n.id ≠ m.id ++ ".error")

/-- The scheduler-loop invariant behind C1. -/
def schedInv (g : GraphAgent) (st : WorkflowState) (completed : List String) : Prop :=
  st.reducers = [] ∧
  (∀ id ∈ completed, id ∈ g.nodeOrder) ∧
  (∀ id ∈ completed, exactlyOneOutcome st id) ∧
  (∀ id ∈ g.nodeOrder, id ∉ completed →
    st.get ("output." ++ id) = none ∧ st.get (id ++ ".error") = none)

theorem outputs_fold_get (json : Json) (l : List (String × String)) :
    ∀ st : WorkflowState, st.reducers = [] →
      ((l.foldl (fun s p =>
          match GraphAgent.extractJsonPath json p.2 with
          | some value => s.update p.1 value
          | none => s) st).reducers = [] ∧
       ∀ r : String, (∀ p ∈ l, p.1 ≠ r) →
         (l.foldl (fun s p =>
           match GraphAgent.extractJsonPath json p.2 with
           | some value => s.update p.1 value
           | none => s) st).get r = st.get r) := by
  induction l with
  | nil => intro st hred; exact ⟨hred, fun r _ => rfl⟩
  | cons p rest ih =>
    intro st hred
    rcases hext : GraphAgent.extractJsonPath json p.2 with _ | value
    · have := ih st hred
      constructor
      · simpa [List.foldl_cons, hext] using this.1
      · intro r hr
        have h2 := this.2 r (fun q hq => hr q (by simp [hq]))
        simpa [List.foldl_cons, hext] using h2
    · have hred' : (st.update p.1 value).reducers = [] := by
        rw [update_of_no_reducers st p.1 value hred]
      have := ih (st.update p.1 value) hred'
      constructor
      · simpa [List.foldl_cons, hext] using this.1
      · intro r hr
        have hne : p.1 ≠ r := hr p (by simp)
        have h2 := this.2 r (fun q hq => hr q (by simp [hq]))
        have h3 : (st.update p.1 value).get r = st.get r :=
          get_update_ne_of_no_reducers st p.1 r value hred (fun h => hne h.symm)
        simp only [List.foldl_cons, hext]
        rw [h2, h3]

theorem applyOutputs_spec (node : CompiledNode) (output : String)
    (st : WorkflowState) (hred : st.reducers = []) :
    (GraphAgent.applyOutputs node output st).reducers = [] ∧
    ((∀ p ∈ node.outputs, p.1 ≠ "output." ++ node.id) →
      ∃ v, (GraphAgent.applyOutputs node output st).get ("output." ++ node.id) = some v) ∧
    (∀ r : String, r ≠ "output." ++ node.id → (∀ p ∈ node.outputs, p.1 ≠ r) →
      (GraphAgent.applyOutputs node output st).get r = st.get r) := by
  unfold GraphAgent.applyOutputs
  rcases hparse : jsonParse output with _ | json
  · have hred' : (st.update ("output." ++ node.id) (.str output)).reducers = [] := by
      rw [update_of_no_reducers st _ _ hred]
    refine ⟨hred', fun _ => ⟨.str output, get_update_self_of_no_reducers st _ _ hred⟩, ?_⟩
    intro r hr _
    exact get_update_ne_of_no_reducers st _ r _ hred hr
  · have hred1 : (st.update ("output." ++ node.id) json).reducers = [] := by
      rw [update_of_no_reducers st _ _ hred]
    have hfold := outputs_fold_get json node.outputs
      (st.update ("output." ++ node.id) json) hred1
    refine ⟨hfold.1, ?_, ?_⟩
    · intro hself
      refine ⟨json, ?_⟩
      rw [hfold.2 ("output." ++ node.id) hself]
      exact get_update_self_of_no_reducers st _ _ hred
    · intro r hr hout
      rw [hfold.2 r hout]
      exact get_update_ne_of_no_reducers st _ r _ hred hr

theorem execNode_preserves (g : GraphAgent) (input : String) (hwk : wellKeyed g)
    (st : WorkflowState) (completed : List String) (id : String)
    (hinv : schedInv g st completed) (hmem : id ∈ g.nodeOrder) (hnot : id ∉ completed) :
    (g.execNode input (st, completed) id).2 = id :: completed ∧
    schedInv g (g.execNode input (st, completed) id).1 (id :: completed) := by
  obtain ⟨node, hlook⟩ : ∃ node, g.lookupNode id = some node := by
    rcases h : g.lookupNode id with _ | node
    · have hs := lookupNode_isSome g id hmem
      rw [h] at hs
      cases hs
    · exact ⟨node, rfl⟩
  obtain ⟨hnode_mem, hnode_id⟩ := lookupNode_sound g id node hlook
  obtain ⟨hred, hsub, hone, hnone⟩ := hinv
  obtain ⟨hnodup, hmaps, hsep⟩ := hwk
  have hid_node : ∀ j ∈ g.nodeOrder, ∃ nj, nj ∈ g.nodes ∧ nj.id = j := by
    intro j hj
    rcases List.mem_map.mp hj with ⟨nj, hnj, hjid⟩
    exact ⟨nj, hnj, hjid⟩
  rcases hrun : node.agent (GraphAgent.buildNodeInput input node st) with e | output
  · -- agent error: record `<id>.error`, mark completed
    have hpair : g.execNode input (st, completed) id =
        (st.update (id ++ ".error") (.str e), id :: completed) := by
      simp [GraphAgent.execNode, hlook, hrun]
    rw [hpair]
    have hered : (st.update (id ++ ".error") (.str e)).reducers = [] := by
      rw [update_of_no_reducers st _ _ hred]
    have hout_ne_err : ("output." ++ id : String) ≠ id ++ ".error" := by
      have := hsep node hnode_mem node hnode_mem
      rwa [hnode_id] at this
    have hget_err : (st.update (id ++ ".error") (.str e)).get (id ++ ".error") =
        some (.str e) := get_update_self_of_no_reducers st _ _ hred
    have hget_out : (st.update (id ++ ".error") (.str e)).get ("output." ++ id) =
        st.get ("output." ++ id) :=
      get_update_ne_of_no_reducers st _ _ _ hred hout_ne_err
    have hkeep : ∀ j, j ≠ id → j ∈ g.nodeOrder →
        (st.update (id ++ ".error") (.str e)).get ("output." ++ j) =
          st.get ("output." ++ j) ∧
        (st.update (id ++ ".error") (.str e)).get (j ++ ".error") =
          st.get (j ++ ".error") := by
      intro j hne hj
      obtain ⟨nj, hnj, hnjid⟩ := hid_node j hj
      constructor
      · apply get_update_ne_of_no_reducers st _ _ _ hred
        have := hsep nj hnj node hnode_mem
        rwa [hnjid, hnode_id] at this
      · apply get_update_ne_of_no_reducers st _ _ _ hred
        intro h
        exact hne (errKey_injective h)
    refine ⟨rfl, hered, ?_, ?_, ?_⟩
    · intro j hj
      rcases List.mem_cons.mp hj with h | h
      · rw [h]; exact hmem
      · exact hsub j h
    · intro j hj
      rcases List.mem_cons.mp hj with h | h
      · rw [h]
        right
        refine ⟨⟨e, hget_err⟩, ?_⟩
        rw [hget_out]
        exact (hnone id hmem hnot).1
      · have hne : j ≠ id := fun hh => hnot (hh ▸ h)
        have hk := hkeep j hne (hsub j h)
        unfold exactlyOneOutcome
        rw [hk.1, hk.2]
        exact hone j h
    · intro j hj hjn
      have hne : j ≠ id := fun hh => hjn (hh ▸ List.mem_cons_self id completed)
      have hnc : j ∉ completed := fun hh => hjn (List.mem_cons_of_mem id hh)
      have hk := hkeep j hne hj
      rw [hk.1, hk.2]
      exact hnone j hj hnc
  · -- agent success: apply outputs, mark completed
    have hpair : g.execNode input (st, completed) id =
        (GraphAgent.applyOutputs node output st, id :: completed) := by
      simp [GraphAgent.execNode, hlook, hrun]
    rw [hpair]
    obtain ⟨hared, hasome, hapre⟩ := applyOutputs_spec node output st hred
    have hself : ∀ p ∈ node.outputs, p.1 ≠ "output." ++ node.id :=
      fun p hp => (hmaps node hnode_mem p hp node hnode_mem).1
    have hkeep : ∀ j, j ≠ id → j ∈ g.nodeOrder →
        (GraphAgent.applyOutputs node output st).get ("output." ++ j) =
          st.get ("output." ++ j) ∧
        (GraphAgent.applyOutputs node output st).get (j ++ ".error") =
          st.get (j ++ ".error") := by
      intro j hne hj
      obtain ⟨nj, hnj, hnjid⟩ := hid_node j hj
      constructor
      · apply hapre
        · intro h
          have hji : j = node.id := outKey_injective h
          rw [hnode_id] at hji
          exact hne hji
        · intro p hp
          have := (hmaps node hnode_mem p hp nj hnj).1
          rwa [hnjid] at this
      · apply hapre
        · intro h
          have := hsep node hnode_mem nj hnj
          rw [hnjid] at this
          exact this h.symm
        · intro p hp
          have := (hmaps node hnode_mem p hp nj hnj).2
          rwa [hnjid] at this
    refine ⟨rfl, hared, ?_, ?_, ?_⟩
    · intro j hj
      rcases List.mem_cons.mp hj with h | h
      · rw [h]; exact hmem
      · exact hsub j h
    · intro j hj
      rcases List.mem_cons.mp hj with h | h
      · rw [h]
        left
        constructor
        · have := hasome hself
          rwa [hnode_id] at this
        · have herr : (GraphAgent.applyOutputs node output st).get (id ++ ".error") =
              st.get (id ++ ".error") := by
            apply hapre
            · intro h
              rw [hnode_id] at h
              have := hsep node hnode_mem node hnode_mem
              rw [hnode_id] at this
              exact this h.symm
            · intro p hp
              have := (hmaps node hnode_mem p hp node hnode_mem).2
              rwa [hnode_id] at this
          rw [herr]
          exact (hnone id hmem hnot).2
      · have hne : j ≠ id := fun hh => hnot (hh ▸ h)
        have hk := hkeep j hne (hsub j h)
        unfold exactlyOneOutcome
        rw [hk.1, hk.2]
        exact hone j h
    · intro j hj hjn
      have hne : j ≠ id := fun hh => hjn (hh ▸ List.mem_cons_self id completed)
      have hnc : j ∉ completed := fun hh => hjn (List.mem_cons_of_mem id hh)
      have hk := hkeep j hne hj
      rw [hk.1, hk.2]
      exact hnone j hj hnc

theorem execFold_preserves (g : GraphAgent) (input : String) (hwk : wellKeyed g) :
    ∀ (ids : List String) (st : WorkflowState) (completed : List String),
      schedInv g st completed → ids.Nodup →
      (∀ id ∈ ids, id ∈ g.nodeOrder ∧ id ∉ completed) →
      schedInv g (ids.foldl (g.execNode input) (st, completed)).1
        (ids.foldl (g.execNode input) (st, completed)).2 := by
  intro ids
  induction ids with
  | nil => intro st completed hinv _ _; exact hinv
  | cons id rest ih =>
    intro st completed hinv hnodup hcond
    have h1 := execNode_preserves g input hwk st completed id hinv
      (hcond id (by simp)).1 (hcond id (by simp)).2
    rw [List.foldl_cons]
    have hpair : g.execNode input (st, completed) id =
        ((g.execNode input (st, completed) id).1, id :: completed) := by
      rw [← h1.1]
    rw [hpair]
    refine ih _ _ h1.2 (List.Nodup.of_cons hnodup) ?_
    intro j hj
    refine ⟨(hcond j (by simp [hj])).1, ?_⟩
    intro hmem
    rcases List.mem_cons.mp hmem with h | h
    · rw [h] at hj
      exact (List.nodup_cons.mp hnodup).1 hj
    · exact (hcond j (by simp [hj])).2 h

theorem runLoop_preserves (g : GraphAgent) (input : String) (hwk : wellKeyed g) :
    ∀ (fuel : ℕ) (st : WorkflowState) (completed : List String),
      schedInv g st completed →
      schedInv g (GraphAgent.runLoop g input fuel st completed).1
        (GraphAgent.runLoop g input fuel st completed).2 := by
  intro fuel
  induction fuel with
  | zero => intro st completed hinv; exact hinv
  | succ fuel ih =>
    intro st completed hinv
    by_cases hempty : (g.getReadyNodes completed st).isEmpty = true
    · simpa [GraphAgent.runLoop, hempty] using hinv
    · have hF : (g.getReadyNodes completed st).isEmpty = false := by
        simpa using hempty
      have hsubord : ∀ id ∈ g.getReadyNodes completed st,
          id ∈ g.nodeOrder ∧ id ∉ completed := by
        intro id hid
        unfold GraphAgent.getReadyNodes at hid
        have h1 := List.mem_filter.mp hid
        have h2 := List.mem_filter.mp h1.1
        refine ⟨h2.1, ?_⟩
        have hcf : completed.contains id = false := by
          have := h2.2
          simpa using this
        intro hmem
        have hct : completed.contains id = true := List.elem_iff.mpr hmem
        exact absurd (hcf.symm.trans hct) (by decide)
      have hnodupready : (g.getReadyNodes completed st).Nodup := by
        unfold GraphAgent.getReadyNodes
        exact (hwk.1.filter _).filter _
      simp only [GraphAgent.runLoop, hF, Bool.false_eq_true, if_false]
      exact ih _ _ (execFold_preserves g input hwk _ st completed hinv
        hnodupready hsubord)

theorem schedInv_init (g : GraphAgent) (input : String) :
    schedInv g (WorkflowState.empty.update "input" (.str input)) [] := by
  have hst : WorkflowState.empty.update "input" (.str input) =
      ⟨[("input", .str input)], []⟩ := by
    rw [update_of_no_reducers _ _ _ rfl]
    rfl
  rw [hst]
  refine ⟨rfl, by simp, by simp, ?_⟩
  intro id _ _
  constructor
  · show hmGet [("input", Json.str input)] ("output." ++ id) = none
    rw [hmGet_cons, if_neg (fun h => outKey_ne_input id h.symm)]
    rfl
  · show hmGet [("input", Json.str input)] (id ++ ".error") = none
    rw [hmGet_cons, if_neg (fun h => errKey_ne_input id h.symm)]
    rfl

/-- C1 (amended): in a well-keyed graph — unique node ids, no outputs-mapping
state key and no pair of node ids colliding with the reserved
`output.<id>`/`<id>.error` keys — every node the scheduler completed ends the
run with exactly one of `state["output."+id]` and `state[id+".error"]` set:
the output entry (and no error) after agent success, the error entry as a JSON
string (and no output) after agent failure.  Without the key discipline the
invariant is false as universally claimed: an outputs mapping may write the
reserved key of another node (see the counterexample). -/
theorem C1_exactly_one_outcome (g : GraphAgent) (input : String)
    (hnodup : (g.nodes.map (·.id)).Nodup)
    (hmaps : ∀ n ∈ g.nodes, ∀ p ∈ n.outputs, ∀ m ∈ g.nodes,
      p.1 ≠ "output." ++ m.id ∧ p.1 ≠ m.id ++ ".error")
    (hsep : ∀ n ∈ g.nodes, ∀ m ∈ g.nodes, "output." ++ n.id ≠ m.id ++ ".error") :
    ∀ id ∈ (g.runFull input).2,
      ((∃ v, (g.runFull input).1.get ("output." ++ id) = some v) ∧
        (g.runFull input).1.get (id ++ ".error") = none) ∨
      ((∃ s, (g.runFull input).1.get (id ++ ".error") = some (.str s)) ∧
        (g.runFull input).1.get ("output." ++ id) = none) := by
  intro id hid
  have hinv := runLoop_preserves g input ⟨hnodup, hmaps, hsep⟩ 100
    (WorkflowState.empty.update "input" (.str input)) [] (schedInv_init g input)
  exact hinv.2.2.1 id hid

/-- Node `a` of the C1 counterexample graph. -/
def c1NodeA : CompiledNode := ⟨"a", fun _ => .ok "alpha", [], none, [], .all⟩

/-- Node `b` (fails) of the C1 counterexample graph. -/
def c1NodeB : CompiledNode := ⟨"b", fun _ => .error "boom", [], none, [], .all⟩

/-- Node `c` of the C1 counterexample graph: its outputs mapping writes the
reserved key `output.b` of its failed peer. -/
def c1NodeC : CompiledNode :=
  ⟨"c", fun _ => .ok "\x7b\"x\": true\x7d", [], none, [("output.b", "x")], .all⟩

/-- The C1 counterexample graph. -/
def c1Graph : GraphAgent := ⟨"cx", "cx", [c1NodeA, c1NodeB, c1NodeC]⟩

theorem C1_counterexample :
    (c1Graph.runFull "i").2.contains "b" = true ∧
    (c1Graph.runFull "i").1.get ("output." ++ "b") = some (.bool true) ∧
    (c1Graph.runFull "i").1.get ("b" ++ ".error") = some (.str "boom") := by
  refine ⟨by decide, by decide, by decide⟩

/-- Well-keyed graph for the C1 witness: one succeeding node, one failing
node, one node with a benign outputs mapping. -/
def c1wNodeA : CompiledNode := ⟨"a", fun _ => .ok "alpha", [], none, [], .all⟩

/-- Failing node of the C1 witness graph. -/
def c1wNodeB : CompiledNode := ⟨"b", fun _ => .error "boom", [], none, [], .all⟩

/-- Mapped-output node of the C1 witness graph. -/
def c1wNodeC : CompiledNode :=
  ⟨"c", fun _ => .ok "\x7b\"x\": true\x7d", [], none, [("flag", "x")], .all⟩

/-- The C1 witness graph. -/
def c1wGraph : GraphAgent := ⟨"w", "w", [c1wNodeA, c1wNodeB, c1wNodeC]⟩

theorem C1_exactly_one_outcome_witness :
    ((∃ v, (c1wGraph.runFull "go").1.get ("output." ++ "b") = some v) ∧
      (c1wGraph.runFull "go").1.get ("b" ++ ".error") = none) ∨
    ((∃ s, (c1wGraph.runFull "go").1.get ("b" ++ ".error") = some (.str s)) ∧
      (c1wGraph.runFull "go").1.get ("output." ++ "b") = none) :=
  C1_exactly_one_outcome c1wGraph "go" (by decide) (by decide) (by decide)
    "b" (by decide)
